import Mathlib

/-!
Job sync engine of the cluster operator.

A shallow embedding of `pkg/controller/jobsync.go` and theorems about it.

* Go's `error` is `Option GoError` (`none` is `nil`); a call returning a value
  and an error is an `Except`.
* The owner is a value: `metav1.Object` with the two fields `Sync` reads
  (deletion timestamp, finalizers) and the rest of the object as a parameter.
  A strategy method that mutates the owner it is given is a function returning
  the mutated owner.
* `JobSyncStrategy` and `JobControl` are interfaces: records of functions.
  Every call `Sync` makes on them, and every `SetFinalizers` on an owner, is
  recorded in order in `SyncRun.calls`, with the arguments of the call.
* Logging and the duration measurement of `Sync` are left out.
* No strategy is part of the sources. Claims about the conditions stored on an
  owner are settled on `Model.strategy`, which follows the description of the
  strategy and of the update policies in the specification.
-/

namespace JobSyncEngine

/-! ## Library types -/

/-- Go error value. `notFound` is what `errors.IsNotFound` reports for it. -/
structure GoError where
  notFound : Bool
  message : String
deriving DecidableEq, Repr

namespace errors

/-- Result of `errors.IsNotFound(err)` for a non-nil `err`. -/
def IsNotFound (err : GoError) : Bool := err.notFound

end errors

namespace fmt

/-- Result of `fmt.Errorf` once the message has been formatted. -/
def Errorf (message : String) : GoError := { notFound := false, message := message }

end fmt

/-- Type `kapi.ConditionStatus`. -/
inductive ConditionStatus where
  | ConditionTrue
  | ConditionFalse
  | ConditionUnknown
deriving DecidableEq, Repr

/-- Type `v1batch.Job`, of which `Sync` reads the name only. -/
structure Job where
  Name : String
deriving DecidableEq, Repr

/-- Interface `metav1.Object`: deletion timestamp, finalizers, and the rest of
the object (`rest`: name, spec, status, ...). -/
structure Owner (α : Type) where
  deletionTimestamp : Option Nat
  finalizers : List String
  rest : α
deriving DecidableEq, Repr

namespace Owner

variable {α : Type}

/-- Method `GetDeletionTimestamp`; `none` is the nil pointer. -/
def GetDeletionTimestamp (o : Owner α) : Option Nat := o.deletionTimestamp

/-- Method `GetFinalizers`. -/
def GetFinalizers (o : Owner α) : List String := o.finalizers

/-- Method `SetFinalizers`. -/
def SetFinalizers (o : Owner α) (finalizers : List String) : Owner α :=
  { o with finalizers := finalizers }

end Owner

namespace sets

/-- Order in which `List()` returns the keys: `sort.Strings`, ascending under
Go's `<` on strings, which compares byte by byte; for UTF-8 that is the order of
the code points. `leString a b`: `a` is not after `b`. -/
def leString (a b : String) : Prop := a.toList ≤ b.toList

instance : DecidableRel leString := fun a b =>
  inferInstanceAs (Decidable (a.toList ≤ b.toList))

/-- Method `Insert` of `sets.String`, a `map[string]Empty`, which is modelled
by the list of its keys, each once. -/
def Insert (s : List String) (item : String) : List String :=
  if item ∈ s then s else s ++ [item]

/-- Function `sets.NewString(items...)`: the empty set with every item
inserted. -/
def NewString (items : List String) : List String :=
  items.foldl Insert []

/-- Method `Delete` of `sets.String`. -/
def Delete (s : List String) (item : String) : List String :=
  s.filter (fun x => x ≠ item)

/-- Method `List` of `sets.String`: the keys, sorted. -/
def List (s : List String) : List String :=
  s.insertionSort leString

end sets

/-! ## Types of the controller package -/

/-- Type `JobSyncConditionType`. -/
inductive JobSyncConditionType where
  | JobSyncProcessing
  | JobSyncProcessed
  | JobSyncProcessingFailed
  | JobSyncUndoing
  | JobSyncUndoFailed
deriving DecidableEq, Repr

/-- The string of a `JobSyncConditionType` constant. -/
def JobSyncConditionType.toString : JobSyncConditionType → String
  | .JobSyncProcessing => "Processing"
  | .JobSyncProcessed => "Processed"
  | .JobSyncProcessingFailed => "ProcessingFailed"
  | .JobSyncUndoing => "Undoing"
  | .JobSyncUndoFailed => "UndoFailed"

def ReasonJobRunning : String := "JobRunning"
def ReasonJobCompleted : String := "JobCompleted"
def ReasonJobFailed : String := "JobFailed"
def ReasonJobMissing : String := "JobMissing"
def ReasonSpecChanged : String := "SpecChanged"

/-- Modelled from the spec: the declaration of `UpdateConditionCheck` and of its
three values is not part of these sources. The spec names the three policies
`Never`, `Always` and `IfReasonOrMessageChange`. -/
inductive UpdateConditionCheck where
  | UpdateConditionNever
  | UpdateConditionAlways
  | UpdateConditionIfReasonOrMessageChange
deriving DecidableEq, Repr

/-- Modelled from the spec: the declaration of `JobControlResult` is not part of
these sources. The spec lists eight outcomes; `Sync` has a `default` branch for
any other value, which is `other v`, printed as `v`. -/
inductive JobControlResult where
  | JobControlJobSucceeded
  | JobControlJobWorking
  | JobControlJobFailed
  | JobControlCreatingJob
  | JobControlDeletingJobs
  | JobControlLostCurrentJob
  | JobControlPendingExpectations
  | JobControlNoWork
  | other (v : String)
deriving DecidableEq, Repr

/-- Modelled from the spec: the interface `JobControl` is declared outside these
sources. The methods `Sync` calls, with the signatures of spec §4.2;
`ObserveOwnerDeletion` returns nothing and is a `Call` only. -/
structure JobControl (α F : Type) where
  ControlJobs : String → Owner α → String → Bool → F →
    Except GoError (JobControlResult × Option Job)
  GetJobPrefix : String

/-- Modelled from the spec: the interface `JobSyncStrategy` is declared outside
these sources. The methods are those of spec §4.4; a method that mutates the
owner it is given returns the mutated owner. -/
structure JobSyncStrategy (α F : Type) where
  GetOwner : String → Except GoError (Owner α)
  DoesOwnerNeedProcessing : Owner α → Bool
  GetOwnerCurrentJob : Owner α → String
  SetOwnerCurrentJob : Owner α → String → Owner α
  GetJobFactory : Owner α → Bool → Except GoError F
  DeepCopyOwner : Owner α → Owner α
  SetOwnerJobSyncCondition : Owner α → JobSyncConditionType → ConditionStatus →
    String → String → UpdateConditionCheck → Owner α
  OnJobCompletion : Owner α → Owner α
  OnJobFailure : Owner α → Owner α
  UpdateOwnerStatus : Owner α → Owner α → Option GoError

/-- One call made by `Sync` on the strategy, on the job control, or
`SetFinalizers` on an owner, with the arguments it was made with. -/
inductive Call (α F : Type) where
  | GetOwner (key : String)
  | ObserveOwnerDeletion (key : String)
  | GetJobPrefix
  | GetOwnerCurrentJob (owner : Owner α)
  | DoesOwnerNeedProcessing (owner : Owner α)
  | GetJobFactory (owner : Owner α) (deleting : Bool)
  | ControlJobs (key : String) (owner : Owner α) (currentJobName : String)
      (needsProcessing : Bool) (jobFactory : F)
  | DeepCopyOwner (original : Owner α)
  | SetOwnerJobSyncCondition (owner : Owner α) (conditionType : JobSyncConditionType)
      (status : ConditionStatus) (reason message : String) (check : UpdateConditionCheck)
  | SetOwnerCurrentJob (owner : Owner α) (jobName : String)
  | OnJobCompletion (owner : Owner α)
  | OnJobFailure (owner : Owner α)
  | SetFinalizers (owner : Owner α) (finalizers : List String)
  | UpdateOwnerStatus (original owner : Owner α)
deriving DecidableEq, Repr

/-- What a run of `Sync`, or of one of its helpers, amounts to: the error it
returns and the calls it made, in order. -/
structure SyncRun (α F : Type) where
  ret : Option GoError
  calls : List (Call α F)
deriving DecidableEq, Repr

/-- Struct `jobSync`; the logger is left out. -/
structure jobSync (α F : Type) where
  jobControl : JobControl α F
  strategy : JobSyncStrategy α F
  undoOnDelete : Bool

variable {α F : Type}

/-! ## The methods of `jobSync` -/

/-- Method `getFinalizerName`: `fmt.Sprintf("openshift/cluster-operator-%s1", prefix)`.
It makes one `GetJobPrefix` call, which its callers record. -/
def jobSync.getFinalizerName (s : jobSync α F) : String :=
  "openshift/cluster-operator-" ++ s.jobControl.GetJobPrefix ++ "1"

/-- The loop of `hasFinalizer` over the finalizers of the owner. -/
def hasFinalizerLoop (finalizer : String) : List String → Bool
  | [] => false
  | f :: rest => if f = finalizer then true else hasFinalizerLoop finalizer rest

/-- Method `hasFinalizer`. It makes one `GetJobPrefix` call, which its callers
record. -/
def jobSync.hasFinalizer (s : jobSync α F) (owner : Owner α) : Bool :=
  let finalizer := s.getFinalizerName
  hasFinalizerLoop finalizer owner.GetFinalizers

/-- Method `setOwnerStatusForOutdatedJob`. -/
def jobSync.setOwnerStatusForOutdatedJob (s : jobSync α F) (original : Owner α) :
    SyncRun α F :=
  let owner0 := s.strategy.DeepCopyOwner original
  let owner1 := s.strategy.SetOwnerJobSyncCondition owner0 .JobSyncProcessing
    .ConditionFalse ReasonSpecChanged "Spec changed. New job needed" .UpdateConditionNever
  let owner2 := s.strategy.SetOwnerCurrentJob owner1 ""
  { ret := s.strategy.UpdateOwnerStatus original owner2
    calls := [
      .DeepCopyOwner original,
      .SetOwnerJobSyncCondition owner0 .JobSyncProcessing .ConditionFalse ReasonSpecChanged
        "Spec changed. New job needed" .UpdateConditionNever,
      .SetOwnerCurrentJob owner1 "",
      .UpdateOwnerStatus original owner2] }

/-- Method `setOwnerStatusForLostJob`. -/
def jobSync.setOwnerStatusForLostJob (s : jobSync α F) (original : Owner α)
    (deleting : Bool) : SyncRun α F :=
  let owner0 := s.strategy.DeepCopyOwner original
  let workingCondtion : JobSyncConditionType :=
    if deleting then .JobSyncUndoing else .JobSyncProcessing
  let workingFailedCondtion : JobSyncConditionType :=
    if deleting then .JobSyncUndoFailed else .JobSyncProcessingFailed
  let reason := ReasonJobMissing
  let message := "Job not found."
  let owner1 := s.strategy.SetOwnerJobSyncCondition owner0 workingCondtion
    .ConditionFalse reason message .UpdateConditionNever
  let owner2 := s.strategy.SetOwnerJobSyncCondition owner1 workingFailedCondtion
    .ConditionTrue reason message .UpdateConditionAlways
  let owner3 := s.strategy.SetOwnerCurrentJob owner2 ""
  let owner4 := if !deleting then s.strategy.OnJobFailure owner3 else owner3
  { ret := s.strategy.UpdateOwnerStatus original owner4
    calls := [
      .DeepCopyOwner original,
      .SetOwnerJobSyncCondition owner0 workingCondtion .ConditionFalse reason message
        .UpdateConditionNever,
      .SetOwnerJobSyncCondition owner1 workingFailedCondtion .ConditionTrue reason message
        .UpdateConditionAlways,
      .SetOwnerCurrentJob owner2 ""]
      ++ (if !deleting then [.OnJobFailure owner3] else [])
      ++ [.UpdateOwnerStatus original owner4] }

/-- Method `setOwnerStatusForCompletedJob`. -/
def jobSync.setOwnerStatusForCompletedJob (s : jobSync α F) (original : Owner α)
    (deleting : Bool) : SyncRun α F :=
  let owner0 := s.strategy.DeepCopyOwner original
  let reason := ReasonJobCompleted
  let message := "Job completed"
  if deleting then
    let owner1 := s.strategy.SetOwnerJobSyncCondition owner0 .JobSyncUndoing
      .ConditionFalse reason message .UpdateConditionNever
    let owner2 := s.strategy.SetOwnerJobSyncCondition owner1 .JobSyncProcessed
      .ConditionFalse reason message .UpdateConditionNever
    let owner3 := s.strategy.SetOwnerJobSyncCondition owner2 .JobSyncUndoFailed
      .ConditionFalse reason message .UpdateConditionNever
    let owner4 := s.strategy.SetOwnerCurrentJob owner3 ""
    let finalizerName := s.getFinalizerName
    let finalizers := sets.NewString owner4.GetFinalizers
    let finalizers := sets.Delete finalizers finalizerName
    let owner5 := owner4.SetFinalizers (sets.List finalizers)
    { ret := s.strategy.UpdateOwnerStatus original owner5
      calls := [
        .DeepCopyOwner original,
        .SetOwnerJobSyncCondition owner0 .JobSyncUndoing .ConditionFalse reason message
          .UpdateConditionNever,
        .SetOwnerJobSyncCondition owner1 .JobSyncProcessed .ConditionFalse reason message
          .UpdateConditionNever,
        .SetOwnerJobSyncCondition owner2 .JobSyncUndoFailed .ConditionFalse reason message
          .UpdateConditionNever,
        .SetOwnerCurrentJob owner3 "",
        .GetJobPrefix,
        .SetFinalizers owner4 (sets.List finalizers),
        .UpdateOwnerStatus original owner5] }
  else
    let owner1 := s.strategy.SetOwnerJobSyncCondition owner0 .JobSyncProcessing
      .ConditionFalse reason message .UpdateConditionNever
    let owner2 := s.strategy.SetOwnerJobSyncCondition owner1 .JobSyncProcessed
      .ConditionTrue reason message .UpdateConditionAlways
    let owner3 := s.strategy.SetOwnerJobSyncCondition owner2 .JobSyncProcessingFailed
      .ConditionFalse reason message .UpdateConditionNever
    let owner4 := s.strategy.SetOwnerCurrentJob owner3 ""
    let owner5 := s.strategy.OnJobCompletion owner4
    { ret := s.strategy.UpdateOwnerStatus original owner5
      calls := [
        .DeepCopyOwner original,
        .SetOwnerJobSyncCondition owner0 .JobSyncProcessing .ConditionFalse reason message
          .UpdateConditionNever,
        .SetOwnerJobSyncCondition owner1 .JobSyncProcessed .ConditionTrue reason message
          .UpdateConditionAlways,
        .SetOwnerJobSyncCondition owner2 .JobSyncProcessingFailed .ConditionFalse reason
          message .UpdateConditionNever,
        .SetOwnerCurrentJob owner3 "",
        .OnJobCompletion owner4,
        .UpdateOwnerStatus original owner5] }

/-- Method `setOwnerStatusForFailedJob`. -/
def jobSync.setOwnerStatusForFailedJob (s : jobSync α F) (original : Owner α) :
    SyncRun α F :=
  let owner0 := s.strategy.DeepCopyOwner original
  let owner1 := s.strategy.SetOwnerCurrentJob owner0 ""
  { ret := s.strategy.UpdateOwnerStatus original owner1
    calls := [
      .DeepCopyOwner original,
      .SetOwnerCurrentJob owner0 "",
      .UpdateOwnerStatus original owner1] }

/-- Method `setOwnerStatusForInProgressJob`; `job = none` is the nil pointer. -/
def jobSync.setOwnerStatusForInProgressJob (s : jobSync α F) (original : Owner α)
    (job : Option Job) (deleting : Bool) : SyncRun α F :=
  match job with
  | none =>
    { ret := some (fmt.Errorf
        "job control result was that a job was working, but no job was returned")
      calls := [] }
  | some job =>
    let owner0 := s.strategy.DeepCopyOwner original
    let workingCondtion : JobSyncConditionType :=
      if deleting then .JobSyncUndoing else .JobSyncProcessing
    let reason := ReasonJobRunning
    let message := "Job running"
    let owner1 := s.strategy.SetOwnerJobSyncCondition owner0 workingCondtion
      .ConditionTrue reason message .UpdateConditionIfReasonOrMessageChange
    let owner2 := s.strategy.SetOwnerCurrentJob owner1 job.Name
    { ret := s.strategy.UpdateOwnerStatus original owner2
      calls := [
        .DeepCopyOwner original,
        .SetOwnerJobSyncCondition owner0 workingCondtion .ConditionTrue reason message
          .UpdateConditionIfReasonOrMessageChange,
        .SetOwnerCurrentJob owner1 job.Name,
        .UpdateOwnerStatus original owner2] }

/-- Method `addFinalizer`. -/
def jobSync.addFinalizer (s : jobSync α F) (original : Owner α) : SyncRun α F :=
  if s.hasFinalizer original then
    { ret := none, calls := [.GetJobPrefix] }
  else
    let owner0 := s.strategy.DeepCopyOwner original
    let finalizers := sets.NewString owner0.GetFinalizers
    let finalizers := sets.Insert finalizers s.getFinalizerName
    let owner1 := owner0.SetFinalizers (sets.List finalizers)
    { ret := s.strategy.UpdateOwnerStatus original owner1
      calls := [
        .GetJobPrefix,
        .DeepCopyOwner original,
        .GetJobPrefix,
        .SetFinalizers owner0 (sets.List finalizers),
        .UpdateOwnerStatus original owner1] }

/-- A run that made the calls `before` and then went on as `r`. -/
def SyncRun.after (before : List (Call α F)) (r : SyncRun α F) : SyncRun α F :=
  { ret := r.ret, calls := before ++ r.calls }

/-- The `switch jobControlResult` of `Sync` (lines 137-162). -/
def jobSync.dispatch (s : jobSync α F) (owner : Owner α) (deleting : Bool)
    (currentJobName : String) (jobControlResult : JobControlResult) (job : Option Job) :
    SyncRun α F :=
  match jobControlResult with
  | .JobControlJobSucceeded => s.setOwnerStatusForCompletedJob owner deleting
  | .JobControlJobWorking => s.setOwnerStatusForInProgressJob owner job deleting
  | .JobControlJobFailed => s.setOwnerStatusForFailedJob owner
  | .JobControlDeletingJobs =>
    if currentJobName = "" then { ret := none, calls := [] }
    else s.setOwnerStatusForOutdatedJob owner
  | .JobControlLostCurrentJob => s.setOwnerStatusForLostJob owner deleting
  | .JobControlCreatingJob =>
    if s.undoOnDelete then s.addFinalizer owner
    else { ret := none, calls := [] }
  | .JobControlPendingExpectations => { ret := none, calls := [] }
  | .JobControlNoWork => { ret := none, calls := [] }
  | .other v =>
    { ret := some (fmt.Errorf ("unknown job control result: " ++ v)), calls := [] }

/-- The part of `Sync` after the deletion check (lines 123-162), for an owner
and the value of `deleting` the check ended with. -/
def jobSync.syncOwner (s : jobSync α F) (key : String) (owner : Owner α)
    (deleting : Bool) : SyncRun α F :=
  let currentJobName := s.strategy.GetOwnerCurrentJob owner
  let needsProcessing := deleting || s.strategy.DoesOwnerNeedProcessing owner
  let before : List (Call α F) :=
    [.GetOwnerCurrentJob owner]
    ++ (if deleting then [] else [.DoesOwnerNeedProcessing owner])
    ++ [.GetJobFactory owner deleting]
  match s.strategy.GetJobFactory owner deleting with
  | .error err => { ret := some err, calls := before }
  | .ok jobFactory =>
    let before := before ++
      [.ControlJobs key owner currentJobName needsProcessing jobFactory]
    match s.jobControl.ControlJobs key owner currentJobName needsProcessing jobFactory with
    | .error err => { ret := some err, calls := before }
    | .ok (jobControlResult, job) =>
      (s.dispatch owner deleting currentJobName jobControlResult job).after before

/-- Method `Sync`. -/
def jobSync.Sync (s : jobSync α F) (key : String) : SyncRun α F :=
  match s.strategy.GetOwner key with
  | .error err =>
    if errors.IsNotFound err then
      { ret := none, calls := [.GetOwner key, .ObserveOwnerDeletion key] }
    else
      { ret := some err, calls := [.GetOwner key] }
  | .ok owner =>
    if owner.GetDeletionTimestamp ≠ none then
      if !s.undoOnDelete then
        { ret := none, calls := [.GetOwner key] }
      else if !s.hasFinalizer owner then
        { ret := none, calls := [.GetOwner key, .GetJobPrefix] }
      else
        (s.syncOwner key owner true).after [.GetOwner key, .GetJobPrefix]
    else
      (s.syncOwner key owner false).after [.GetOwner key]

/-! ## Reading the record of calls -/

namespace Call

/-- The call is `DeepCopyOwner`. -/
def isDeepCopyOwner : Call α F → Bool
  | .DeepCopyOwner _ => true
  | _ => false

/-- The call is `SetOwnerJobSyncCondition`. -/
def isSetOwnerJobSyncCondition : Call α F → Bool
  | .SetOwnerJobSyncCondition _ _ _ _ _ _ => true
  | _ => false

/-- The call is `SetOwnerCurrentJob`. -/
def isSetOwnerCurrentJob : Call α F → Bool
  | .SetOwnerCurrentJob _ _ => true
  | _ => false

/-- The call is `SetFinalizers`. -/
def isSetFinalizers : Call α F → Bool
  | .SetFinalizers _ _ => true
  | _ => false

/-- The call is `OnJobCompletion`. -/
def isOnJobCompletion : Call α F → Bool
  | .OnJobCompletion _ => true
  | _ => false

/-- The call is `OnJobFailure`. -/
def isOnJobFailure : Call α F → Bool
  | .OnJobFailure _ => true
  | _ => false

/-- The call is `UpdateOwnerStatus`. -/
def isUpdateOwnerStatus : Call α F → Bool
  | .UpdateOwnerStatus _ _ => true
  | _ => false

/-- The call is `ControlJobs`. -/
def isControlJobs : Call α F → Bool
  | .ControlJobs _ _ _ _ _ => true
  | _ => false

/-- The call is `GetJobFactory`. -/
def isGetJobFactory : Call α F → Bool
  | .GetJobFactory _ _ => true
  | _ => false

/-- The call is `ObserveOwnerDeletion`. -/
def isObserveOwnerDeletion : Call α F → Bool
  | .ObserveOwnerDeletion _ => true
  | _ => false

/-- The call copies an owner, changes one, runs a hook on one or writes one:
`DeepCopyOwner`, a setter, `OnJobCompletion`, `OnJobFailure` or
`UpdateOwnerStatus`. -/
def touchesOwner (c : Call α F) : Bool :=
  c.isDeepCopyOwner || c.isSetOwnerJobSyncCondition || c.isSetOwnerCurrentJob ||
    c.isSetFinalizers || c.isOnJobCompletion || c.isOnJobFailure || c.isUpdateOwnerStatus

end Call

/-- The calls of `Sync` up to and with `ControlJobs`, when it loaded `owner`,
went past the deletion check with `deleting` and obtained `jobFactory`. -/
def jobSync.callsUpToControlJobs (s : jobSync α F) (key : String) (owner : Owner α)
    (deleting : Bool) (jobFactory : F) : List (Call α F) :=
  if deleting then
    [.GetOwner key, .GetJobPrefix, .GetOwnerCurrentJob owner, .GetJobFactory owner true,
      .ControlJobs key owner (s.strategy.GetOwnerCurrentJob owner) true jobFactory]
  else
    [.GetOwner key, .GetOwnerCurrentJob owner, .DoesOwnerNeedProcessing owner,
      .GetJobFactory owner false,
      .ControlJobs key owner (s.strategy.GetOwnerCurrentJob owner)
        (s.strategy.DoesOwnerNeedProcessing owner) jobFactory]

/-- `Sync s key` gets as far as the `switch`: `GetOwner key` gives `owner`; the
deletion check ends with `deleting` (`false`: no deletion timestamp; `true`: a
deletion timestamp, undo on delete, and the engine finalizer on the owner);
`GetJobFactory` gives `jobFactory`; and `ControlJobs` answers `result` and `job`
without an error. -/
structure jobSync.Reaches (s : jobSync α F) (key : String) (owner : Owner α)
    (deleting : Bool) (jobFactory : F) (result : JobControlResult) (job : Option Job) :
    Prop where
  getOwner : s.strategy.GetOwner key = .ok owner
  notDeleting : deleting = false → owner.GetDeletionTimestamp = none
  isDeleting : deleting = true →
    owner.GetDeletionTimestamp ≠ none ∧ s.undoOnDelete = true ∧ s.hasFinalizer owner = true
  getJobFactory : s.strategy.GetJobFactory owner deleting = .ok jobFactory
  controlJobs :
    s.jobControl.ControlJobs key owner (s.strategy.GetOwnerCurrentJob owner)
      (deleting || s.strategy.DoesOwnerNeedProcessing owner) jobFactory = .ok (result, job)

/-- The deletion check of `Sync` (lines 109-121) lets `owner` through with
`deleting`: `false` for an owner without a deletion timestamp; `true` for one
with a deletion timestamp, when undo on delete is enabled and the owner carries
the engine finalizer. -/
structure jobSync.PassesDeletionCheck (s : jobSync α F) (owner : Owner α) (deleting : Bool) :
    Prop where
  notDeleting : deleting = false → owner.GetDeletionTimestamp = none
  isDeleting : deleting = true →
    owner.GetDeletionTimestamp ≠ none ∧ s.undoOnDelete = true ∧ s.hasFinalizer owner = true

/-- The calls of `Sync` up to and with `GetJobFactory`, when it loaded `owner` and
went past the deletion check with `deleting`. -/
def jobSync.callsUpToGetJobFactory (_s : jobSync α F) (key : String) (owner : Owner α)
    (deleting : Bool) : List (Call α F) :=
  if deleting then
    [.GetOwner key, .GetJobPrefix, .GetOwnerCurrentJob owner, .GetJobFactory owner true]
  else
    [.GetOwner key, .GetOwnerCurrentJob owner, .DoesOwnerNeedProcessing owner,
      .GetJobFactory owner false]

/-- One of the eight outcomes of `ControlJobs` that `Sync` has a `case` for. -/
def JobControlResult.isKnown : JobControlResult → Bool
  | .other _ => false
  | _ => true

/-- The strategy leaves the finalizers alone: no method of it that copies or
changes an owner changes what `GetFinalizers` gives. -/
structure JobSyncStrategy.KeepsFinalizers (st : JobSyncStrategy α F) : Prop where
  deepCopyOwner : ∀ o, (st.DeepCopyOwner o).GetFinalizers = o.GetFinalizers
  setOwnerJobSyncCondition : ∀ o t status reason message check,
    (st.SetOwnerJobSyncCondition o t status reason message check).GetFinalizers =
      o.GetFinalizers
  setOwnerCurrentJob : ∀ o name, (st.SetOwnerCurrentJob o name).GetFinalizers = o.GetFinalizers
  onJobCompletion : ∀ o, (st.OnJobCompletion o).GetFinalizers = o.GetFinalizers
  onJobFailure : ∀ o, (st.OnJobFailure o).GetFinalizers = o.GetFinalizers

/-- A record of calls, read from the left, changes only the copy of `original`.
`current` is the copy as changed so far, `none` before `DeepCopyOwner`.
`DeepCopyOwner` is called on `original`, before any change; every setter, every
hook and `SetFinalizers` is applied to `current`, which becomes what the call
makes of it; `UpdateOwnerStatus` is called with `original` and `current` and is
the last call. -/
def followsCopy (st : JobSyncStrategy α F) (original : Owner α) :
    Option (Owner α) → List (Call α F) → Prop
  | _, [] => True
  | current, .DeepCopyOwner o :: rest =>
    current = none ∧ o = original ∧ followsCopy st original (some (st.DeepCopyOwner o)) rest
  | current, .SetOwnerJobSyncCondition o t status reason message check :: rest =>
    current = some o ∧
      followsCopy st original
        (some (st.SetOwnerJobSyncCondition o t status reason message check)) rest
  | current, .SetOwnerCurrentJob o name :: rest =>
    current = some o ∧ followsCopy st original (some (st.SetOwnerCurrentJob o name)) rest
  | current, .OnJobCompletion o :: rest =>
    current = some o ∧ followsCopy st original (some (st.OnJobCompletion o)) rest
  | current, .OnJobFailure o :: rest =>
    current = some o ∧ followsCopy st original (some (st.OnJobFailure o)) rest
  | current, .SetFinalizers o finalizers :: rest =>
    current = some o ∧ followsCopy st original (some (o.SetFinalizers finalizers)) rest
  | current, .UpdateOwnerStatus a b :: rest =>
    a = original ∧ current = some b ∧ rest = []
  | current, .GetOwner _ :: rest => followsCopy st original current rest
  | current, .ObserveOwnerDeletion _ :: rest => followsCopy st original current rest
  | current, .GetJobPrefix :: rest => followsCopy st original current rest
  | current, .GetOwnerCurrentJob _ :: rest => followsCopy st original current rest
  | current, .DoesOwnerNeedProcessing _ :: rest => followsCopy st original current rest
  | current, .GetJobFactory _ _ :: rest => followsCopy st original current rest
  | current, .ControlJobs _ _ _ _ _ :: rest => followsCopy st original current rest

/-! ## A strategy and a job control to run `Sync` on -/

namespace Example

/-- Status of the example owner: the current job, the condition statuses last
set, and how often each hook ran. -/
structure Status where
  currentJob : String
  conditions : List (JobSyncConditionType × ConditionStatus)
  completions : Nat
  failures : Nat
deriving DecidableEq, Repr

/-- A strategy over one stored owner, known under the key `"ns/cluster"`; job
factories are named by strings. -/
def strategy (stored : Owner Status) (updateError : Option GoError) :
    JobSyncStrategy Status String where
  GetOwner := fun key =>
    if key = "ns/cluster" then .ok stored
    else .error { notFound := true, message := "cluster not found" }
  DoesOwnerNeedProcessing := fun o => o.rest.completions == 0
  GetOwnerCurrentJob := fun o => o.rest.currentJob
  SetOwnerCurrentJob := fun o name => { o with rest := { o.rest with currentJob := name } }
  GetJobFactory := fun _ deleting => .ok (if deleting then "deprovision" else "provision")
  DeepCopyOwner := fun o => o
  SetOwnerJobSyncCondition := fun o t st _ _ _ =>
    { o with rest := { o.rest with
        conditions := (t, st) :: o.rest.conditions.filter (fun c => c.1 ≠ t) } }
  OnJobCompletion := fun o =>
    { o with rest := { o.rest with completions := o.rest.completions + 1 } }
  OnJobFailure := fun o =>
    { o with rest := { o.rest with failures := o.rest.failures + 1 } }
  UpdateOwnerStatus := fun _ _ => updateError

/-- A job control with the prefix `"job-"` that answers every `ControlJobs` with
`result` and `job`. -/
def jobControl (result : JobControlResult) (job : Option Job) : JobControl Status String where
  ControlJobs := fun _ _ _ _ _ => .ok (result, job)
  GetJobPrefix := "job-"

/-- The engine over `strategy` and `jobControl`. -/
def engine (undoOnDelete : Bool) (stored : Owner Status) (result : JobControlResult)
    (job : Option Job) : jobSync Status String where
  jobControl := jobControl result job
  strategy := strategy stored none
  undoOnDelete := undoOnDelete

/-- An owner that is not being deleted, with the job `"job-x7"` recorded. -/
def liveOwner : Owner Status where
  deletionTimestamp := none
  finalizers := ["kubernetes", "openshift/cluster-operator-job-1"]
  rest := { currentJob := "job-x7", conditions := [], completions := 0, failures := 0 }

/-- An owner that is being deleted and carries the engine finalizer. -/
def dyingOwner : Owner Status where
  deletionTimestamp := some 1700000000
  finalizers := ["kubernetes", "openshift/cluster-operator-job-1"]
  rest := { currentJob := "job-x7", conditions := [], completions := 1, failures := 0 }

/-- An owner that is not being deleted, with no job recorded and without the
engine finalizer. -/
def freshOwner : Owner Status where
  deletionTimestamp := none
  finalizers := ["kubernetes"]
  rest := { currentJob := "", conditions := [], completions := 0, failures := 0 }

/-- An owner that is being deleted and does not carry the engine finalizer. -/
def foreignOwner : Owner Status where
  deletionTimestamp := some 1700000000
  finalizers := ["kubernetes", "openshift/cluster-operator-job-"]
  rest := { currentJob := "", conditions := [], completions := 1, failures := 0 }

end Example

/-! ## The strategy of the spec -/

/-- The copy that the run handed to `UpdateOwnerStatus`, if the call is one. -/
def Call.writtenOwner? : Call α F → Option (Owner α)
  | .UpdateOwnerStatus _ copy => some copy
  | _ => none

/-- The owner as the run leaves it: the copy handed to `UpdateOwnerStatus`, or
`original` when the run did not call it. -/
def SyncRun.ownerAfter (r : SyncRun α F) (original : Owner α) : Owner α :=
  (r.calls.findSome? Call.writtenOwner?).getD original

namespace Model

/-- Modelled from the spec: a condition of an owner, which no source file
declares. Spec §3: a tuple of type, status, reason, message,
`lastTransitionTime` and `lastProbeTime`; times are numbers here. -/
structure Condition where
  conditionType : JobSyncConditionType
  status : ConditionStatus
  reason : String
  message : String
  lastTransitionTime : Nat
  lastProbeTime : Nat
deriving DecidableEq, Repr

/-- Modelled from the spec: what the engine keeps on an owner besides the
deletion timestamp and the finalizers, which no source file declares. Spec §3:
the spec of the user, the conditions, the current job name and the marker of the
spec last processed; `failures` is the retry counter of the hooks (§4.4). -/
structure OwnerStatus where
  spec : String
  conditions : List Condition
  currentJob : String
  processedSpec : Option String
  failures : Nat
deriving DecidableEq, Repr

/-- Modelled from the spec: whether a condition that is present with the status
asked for is refreshed, for each update policy of spec §4.3. `Never`: do not
touch; `Always`: refresh unconditionally; `IfReasonOrMessageChange`: refresh only
when the text differs. -/
def shouldRefresh (check : UpdateConditionCheck) (old : Condition) (reason message : String) :
    Bool :=
  match check with
  | .UpdateConditionNever => false
  | .UpdateConditionAlways => true
  | .UpdateConditionIfReasonOrMessageChange => old.reason != reason || old.message != message

/-- Modelled from the spec: setting a condition in the list of conditions, which
is the work of `SetOwnerJobSyncCondition` in strategies that are not part of
these sources. An owner has at most one condition of a type (§3): a missing
condition is added; a condition with another status is set to the new status
and text, with both times at `now`; a condition with the status asked for is
refreshed (text and both times) as the update policy says (§4.3). -/
def setCondition (now : Nat) (conditions : List Condition) (t : JobSyncConditionType)
    (status : ConditionStatus) (reason message : String) (check : UpdateConditionCheck) :
    List Condition :=
  match conditions with
  | [] =>
    [{ conditionType := t, status := status, reason := reason, message := message,
       lastTransitionTime := now, lastProbeTime := now }]
  | c :: rest =>
    if c.conditionType = t then
      if c.status ≠ status then
        { c with status := status, reason := reason, message := message,
                 lastTransitionTime := now, lastProbeTime := now } :: rest
      else if shouldRefresh check c reason message then
        { c with reason := reason, message := message,
                 lastTransitionTime := now, lastProbeTime := now } :: rest
      else c :: rest
    else c :: setCondition now rest t status reason message check

/-- Modelled from the spec: the status of the condition of type `t` in a list of
conditions, `none` when there is none. -/
def statusIn (conditions : List Condition) (t : JobSyncConditionType) :
    Option ConditionStatus :=
  match conditions with
  | [] => none
  | c :: rest => if c.conditionType = t then some c.status else statusIn rest t

/-- Modelled from the spec: the status of the condition of type `t` on an
owner. -/
def conditionStatus (o : Owner OwnerStatus) (t : JobSyncConditionType) :
    Option ConditionStatus :=
  statusIn o.rest.conditions t

/-- Modelled from the spec: a strategy as spec §4.4 describes it, over the
read model `stored` and at the time `now`; no strategy is part of these
sources. The owner needs processing when its spec is not the one last processed
(§4.3 step 3); the job factory is the value of `deleting`; `OnJobCompletion`
records the spec as processed and `OnJobFailure` counts (§4.4);
`UpdateOwnerStatus` succeeds. -/
def strategy (stored : String → Except GoError (Owner OwnerStatus)) (now : Nat) :
    JobSyncStrategy OwnerStatus Bool where
  GetOwner := stored
  DoesOwnerNeedProcessing := fun o => o.rest.processedSpec != some o.rest.spec
  GetOwnerCurrentJob := fun o => o.rest.currentJob
  SetOwnerCurrentJob := fun o name => { o with rest := { o.rest with currentJob := name } }
  GetJobFactory := fun _ deleting => .ok deleting
  DeepCopyOwner := fun o => o
  SetOwnerJobSyncCondition := fun o t status reason message check =>
    { o with rest := { o.rest with
        conditions := setCondition now o.rest.conditions t status reason message check } }
  OnJobCompletion := fun o =>
    { o with rest := { o.rest with processedSpec := some o.rest.spec } }
  OnJobFailure := fun o =>
    { o with rest := { o.rest with failures := o.rest.failures + 1 } }
  UpdateOwnerStatus := fun _ _ => none

/-- The engine over the strategy of the spec and a job control. -/
def engine (undoOnDelete : Bool) (jobControl : JobControl OwnerStatus Bool)
    (stored : String → Except GoError (Owner OwnerStatus)) (now : Nat) :
    jobSync OwnerStatus Bool where
  jobControl := jobControl
  strategy := strategy stored now
  undoOnDelete := undoOnDelete

/-- A job control with the prefix `jobPrefix` that answers every `ControlJobs`
with `result` and `job`. -/
def answering (jobPrefix : String) (result : JobControlResult) (job : Option Job) :
    JobControl OwnerStatus Bool where
  ControlJobs := fun _ _ _ _ _ => .ok (result, job)
  GetJobPrefix := jobPrefix

/-- An owner processed at time 100: `Processed=True`, no job recorded, not being
deleted. -/
def processedOwner : Owner OwnerStatus where
  deletionTimestamp := none
  finalizers := ["openshift/cluster-operator-job-1"]
  rest :=
    { spec := "size: 3"
      conditions := [
        { conditionType := .JobSyncProcessing, status := .ConditionFalse,
          reason := "JobCompleted", message := "Job completed",
          lastTransitionTime := 100, lastProbeTime := 100 },
        { conditionType := .JobSyncProcessed, status := .ConditionTrue,
          reason := "JobCompleted", message := "Job completed",
          lastTransitionTime := 100, lastProbeTime := 100 }]
      currentJob := "job-x7"
      processedSpec := some "size: 2"
      failures := 0 }

/-- An owner that is being deleted, carries the engine finalizer for the prefix
`"job-"` and has the undo job `"job-u1"` recorded. -/
def deletedOwner : Owner OwnerStatus where
  deletionTimestamp := some 150
  finalizers := ["openshift/cluster-operator-job-1"]
  rest :=
    { spec := "size: 3"
      conditions := []
      currentJob := "job-u1"
      processedSpec := some "size: 3"
      failures := 0 }

/-- An owner that is not being deleted, has no condition yet and has the job
`"job-x7"` recorded. -/
def runningOwner : Owner OwnerStatus where
  deletionTimestamp := none
  finalizers := ["openshift/cluster-operator-job-1"]
  rest :=
    { spec := "size: 3"
      conditions := []
      currentJob := "job-x7"
      processedSpec := none
      failures := 0 }

/-- Modelled from the spec: whether `ControlJobs` can answer `result` and `job`
when it is called with `currentJobName` and `needsProcessing`, by the algorithm
of spec §4.2; the job control is not part of these sources.
`PendingExpectations` (step 1) and `DeletingJobs` (step 3) can always be the
answer. `LostCurrentJob` needs a recorded job name, for which there is no job
(step 4). `Succeeded`, `Failed` and `Working` need a current job, which is a job
with the recorded name (steps 2 and 5); `Succeeded` and `Working` yield it.
`NoWork` and `CreatingJob` are answers only when no job is recorded, and
`needsProcessing` chooses between them (steps 6 and 7). Nothing else is an
answer. -/
def allowedAnswer (currentJobName : String) (needsProcessing : Bool)
    (result : JobControlResult) (job : Option Job) : Bool :=
  match result with
  | .JobControlPendingExpectations => true
  | .JobControlDeletingJobs => true
  | .JobControlLostCurrentJob => currentJobName != ""
  | .JobControlJobSucceeded =>
    currentJobName != "" && job.map Job.Name == some currentJobName
  | .JobControlJobWorking =>
    currentJobName != "" && job.map Job.Name == some currentJobName
  | .JobControlJobFailed => currentJobName != ""
  | .JobControlNoWork => currentJobName == "" && !needsProcessing
  | .JobControlCreatingJob => currentJobName == "" && needsProcessing
  | .other _ => false

/-- If the call is `ControlJobs`, `result` and `job` are an answer that spec §4.2
allows for its arguments. -/
def answerAllowed (result : JobControlResult) (job : Option Job) :
    Call OwnerStatus Bool → Bool
  | .ControlJobs _ _ currentJobName needsProcessing _ =>
    allowedAnswer currentJobName needsProcessing result job
  | _ => true

end Model

/-! ## Lemmas -/

theorem hasFinalizerLoop_eq_true_iff (finalizer : String) (l : List String) :
    hasFinalizerLoop finalizer l = true ↔ finalizer ∈ l := by
  induction l with
  | nil => simp [hasFinalizerLoop]
  | cons f rest ih =>
    by_cases h : f = finalizer
    · simp [hasFinalizerLoop, h]
    · have h2 : ¬ finalizer = f := fun e => h e.symm
      simp [hasFinalizerLoop, h, h2, ih]

theorem hasFinalizer_eq_true_iff (s : jobSync α F) (owner : Owner α) :
    s.hasFinalizer owner = true ↔ s.getFinalizerName ∈ owner.GetFinalizers := by
  simp [jobSync.hasFinalizer, hasFinalizerLoop_eq_true_iff]

theorem mem_sets_Insert (s : List String) (item x : String) :
    x ∈ sets.Insert s item ↔ x ∈ s ∨ x = item := by
  unfold sets.Insert
  split
  · constructor
    · intro h; exact Or.inl h
    · rintro (h | h)
      · exact h
      · subst h; assumption
  · simp

theorem mem_foldl_sets_Insert (items acc : List String) (x : String) :
    x ∈ items.foldl sets.Insert acc ↔ x ∈ acc ∨ x ∈ items := by
  induction items generalizing acc with
  | nil => simp
  | cons i rest ih =>
    simp only [List.foldl_cons, ih, mem_sets_Insert, List.mem_cons]
    tauto

theorem mem_sets_NewString (items : List String) (x : String) :
    x ∈ sets.NewString items ↔ x ∈ items := by
  simp [sets.NewString, mem_foldl_sets_Insert]

theorem mem_sets_Delete (s : List String) (item x : String) :
    x ∈ sets.Delete s item ↔ x ∈ s ∧ x ≠ item := by
  simp [sets.Delete]

theorem mem_sets_List (s : List String) (x : String) : x ∈ sets.List s ↔ x ∈ s :=
  (List.perm_insertionSort sets.leString s).mem_iff

/-- Under `Reaches`, `Sync` is the `switch` run after the calls up to
`ControlJobs`. -/
theorem Sync_eq_dispatch (s : jobSync α F) (key : String) (owner : Owner α)
    (deleting : Bool) (jobFactory : F) (result : JobControlResult) (job : Option Job)
    (h : s.Reaches key owner deleting jobFactory result job) :
    s.Sync key =
      (s.dispatch owner deleting (s.strategy.GetOwnerCurrentJob owner) result job).after
        (s.callsUpToControlJobs key owner deleting jobFactory) := by
  obtain ⟨hget, hnd, hd, hfac, hctl⟩ := h
  cases deleting with
  | false =>
    have hts := hnd rfl
    simp only [Bool.false_or] at hctl
    simp [jobSync.Sync, hget, hts, jobSync.syncOwner, hfac, hctl, SyncRun.after,
      jobSync.callsUpToControlJobs]
  | true =>
    obtain ⟨hts, hundo, hfin⟩ := hd rfl
    simp only [Bool.true_or] at hctl
    simp [jobSync.Sync, hget, hts, hundo, hfin, jobSync.syncOwner, hfac, hctl, SyncRun.after,
      jobSync.callsUpToControlJobs]

/-- No call among those up to `ControlJobs` copies, changes or writes an
owner. -/
theorem callsUpToControlJobs_touchesOwner (s : jobSync α F) (key : String) (owner : Owner α)
    (deleting : Bool) (jobFactory : F) :
    ∀ c ∈ s.callsUpToControlJobs key owner deleting jobFactory, c.touchesOwner = false := by
  cases deleting <;>
    simp [jobSync.callsUpToControlJobs, Call.touchesOwner, Call.isDeepCopyOwner,
      Call.isSetOwnerJobSyncCondition, Call.isSetOwnerCurrentJob, Call.isSetFinalizers,
      Call.isOnJobCompletion, Call.isOnJobFailure, Call.isUpdateOwnerStatus]

theorem hasFinalizer_eq_false_iff (s : jobSync α F) (owner : Owner α) :
    s.hasFinalizer owner = false ↔ s.getFinalizerName ∉ owner.GetFinalizers := by
  rw [← hasFinalizer_eq_true_iff]
  cases s.hasFinalizer owner <;> simp

/-! ## The outcomes of `ControlJobs` -/

/-- C1: for an owner without a deletion timestamp, when `ControlJobs` returns
`Succeeded`, `Sync` copies the owner with `DeepCopyOwner`, sets on the copy
`Processing=False`, `Processed=True` and `ProcessingFailed=False`, sets the
current job to the empty string, calls `OnJobCompletion` once and `OnJobFailure`
never, and returns what `UpdateOwnerStatus(original, copy)` returns. -/
theorem sync_succeeded_not_deleting (s : jobSync α F) (key : String) (owner : Owner α)
    (jobFactory : F) (job : Option Job)
    (h : s.Reaches key owner false jobFactory .JobControlJobSucceeded job) :
    let copy0 := s.strategy.DeepCopyOwner owner
    let copy1 := s.strategy.SetOwnerJobSyncCondition copy0 .JobSyncProcessing
      .ConditionFalse "JobCompleted" "Job completed" .UpdateConditionNever
    let copy2 := s.strategy.SetOwnerJobSyncCondition copy1 .JobSyncProcessed
      .ConditionTrue "JobCompleted" "Job completed" .UpdateConditionAlways
    let copy3 := s.strategy.SetOwnerJobSyncCondition copy2 .JobSyncProcessingFailed
      .ConditionFalse "JobCompleted" "Job completed" .UpdateConditionNever
    let copy4 := s.strategy.SetOwnerCurrentJob copy3 ""
    let copy5 := s.strategy.OnJobCompletion copy4
    owner.GetDeletionTimestamp = none ∧
    (s.Sync key).ret = s.strategy.UpdateOwnerStatus owner copy5 ∧
    (s.Sync key).calls = s.callsUpToControlJobs key owner false jobFactory ++ [
      .DeepCopyOwner owner,
      .SetOwnerJobSyncCondition copy0 .JobSyncProcessing .ConditionFalse "JobCompleted"
        "Job completed" .UpdateConditionNever,
      .SetOwnerJobSyncCondition copy1 .JobSyncProcessed .ConditionTrue "JobCompleted"
        "Job completed" .UpdateConditionAlways,
      .SetOwnerJobSyncCondition copy2 .JobSyncProcessingFailed .ConditionFalse "JobCompleted"
        "Job completed" .UpdateConditionNever,
      .SetOwnerCurrentJob copy3 "",
      .OnJobCompletion copy4,
      .UpdateOwnerStatus owner copy5] ∧
    (s.Sync key).calls.countP Call.isOnJobCompletion = 1 ∧
    (s.Sync key).calls.countP Call.isOnJobFailure = 0 := by
  have hts := h.notDeleting rfl
  rw [Sync_eq_dispatch s key owner false jobFactory _ job h]
  simp [hts, jobSync.dispatch, jobSync.setOwnerStatusForCompletedJob, SyncRun.after,
    jobSync.callsUpToControlJobs, ReasonJobCompleted, List.countP_cons,
    Call.isOnJobCompletion, Call.isOnJobFailure]

theorem sync_succeeded_not_deleting_witness :
    (Example.engine true Example.liveOwner .JobControlJobSucceeded none).Reaches
        "ns/cluster" Example.liveOwner false "provision" .JobControlJobSucceeded none ∧
      ((Example.engine true Example.liveOwner .JobControlJobSucceeded none).Sync
        "ns/cluster").calls.countP Call.isOnJobCompletion = 1 :=
  have hr : (Example.engine true Example.liveOwner .JobControlJobSucceeded none).Reaches
      "ns/cluster" Example.liveOwner false "provision" .JobControlJobSucceeded none :=
    ⟨rfl, fun _ => rfl, fun hd => absurd hd (by decide), rfl, rfl⟩
  ⟨hr, (sync_succeeded_not_deleting _ _ _ _ _ hr).2.2.2.1⟩

/-- C2: for an owner that is being deleted (deletion timestamp set, undo on
delete enabled, engine finalizer present), when `ControlJobs` returns
`Succeeded`, `Sync` sets on the copy `Undoing=False`, `Processed=False` and
`UndoFailed=False`, clears the current job and removes the engine finalizer: the
owner handed to `UpdateOwnerStatus` does not carry the engine finalizer.
`OnJobCompletion` is not called. -/
theorem sync_succeeded_deleting (s : jobSync α F) (key : String) (owner : Owner α)
    (jobFactory : F) (job : Option Job)
    (h : s.Reaches key owner true jobFactory .JobControlJobSucceeded job) :
    let copy0 := s.strategy.DeepCopyOwner owner
    let copy1 := s.strategy.SetOwnerJobSyncCondition copy0 .JobSyncUndoing
      .ConditionFalse "JobCompleted" "Job completed" .UpdateConditionNever
    let copy2 := s.strategy.SetOwnerJobSyncCondition copy1 .JobSyncProcessed
      .ConditionFalse "JobCompleted" "Job completed" .UpdateConditionNever
    let copy3 := s.strategy.SetOwnerJobSyncCondition copy2 .JobSyncUndoFailed
      .ConditionFalse "JobCompleted" "Job completed" .UpdateConditionNever
    let copy4 := s.strategy.SetOwnerCurrentJob copy3 ""
    let finalizers :=
      sets.List (sets.Delete (sets.NewString copy4.GetFinalizers) s.getFinalizerName)
    let copy5 := copy4.SetFinalizers finalizers
    (owner.GetDeletionTimestamp ≠ none ∧ s.undoOnDelete = true ∧
      s.getFinalizerName ∈ owner.GetFinalizers) ∧
    (s.Sync key).ret = s.strategy.UpdateOwnerStatus owner copy5 ∧
    (s.Sync key).calls = s.callsUpToControlJobs key owner true jobFactory ++ [
      .DeepCopyOwner owner,
      .SetOwnerJobSyncCondition copy0 .JobSyncUndoing .ConditionFalse "JobCompleted"
        "Job completed" .UpdateConditionNever,
      .SetOwnerJobSyncCondition copy1 .JobSyncProcessed .ConditionFalse "JobCompleted"
        "Job completed" .UpdateConditionNever,
      .SetOwnerJobSyncCondition copy2 .JobSyncUndoFailed .ConditionFalse "JobCompleted"
        "Job completed" .UpdateConditionNever,
      .SetOwnerCurrentJob copy3 "",
      .GetJobPrefix,
      .SetFinalizers copy4 finalizers,
      .UpdateOwnerStatus owner copy5] ∧
    s.getFinalizerName ∉ copy5.GetFinalizers ∧
    s.hasFinalizer copy5 = false ∧
    (s.Sync key).calls.countP Call.isOnJobCompletion = 0 := by
  obtain ⟨hts, hundo, hfin⟩ := h.isDeleting rfl
  have hmem := (hasFinalizer_eq_true_iff s owner).1 hfin
  have hnot : s.getFinalizerName ∉
      sets.List (sets.Delete (sets.NewString
        (s.strategy.SetOwnerCurrentJob (s.strategy.SetOwnerJobSyncCondition
          (s.strategy.SetOwnerJobSyncCondition (s.strategy.SetOwnerJobSyncCondition
            (s.strategy.DeepCopyOwner owner) .JobSyncUndoing .ConditionFalse "JobCompleted"
            "Job completed" .UpdateConditionNever) .JobSyncProcessed .ConditionFalse
            "JobCompleted" "Job completed" .UpdateConditionNever) .JobSyncUndoFailed
            .ConditionFalse "JobCompleted" "Job completed" .UpdateConditionNever)
          "").GetFinalizers) s.getFinalizerName) := by
    simp [mem_sets_List, mem_sets_Delete]
  have hhas : ∀ o : Owner α, s.getFinalizerName ∉ o.GetFinalizers →
      s.hasFinalizer o = false := by
    intro o ho
    cases hb : s.hasFinalizer o with
    | false => rfl
    | true => exact absurd ((hasFinalizer_eq_true_iff s o).1 hb) ho
  rw [Sync_eq_dispatch s key owner true jobFactory _ job h]
  refine ⟨⟨hts, hundo, hmem⟩, ?_, ?_, ?_, ?_, ?_⟩
  · simp [jobSync.dispatch, jobSync.setOwnerStatusForCompletedJob, SyncRun.after,
      ReasonJobCompleted]
  · simp [jobSync.dispatch, jobSync.setOwnerStatusForCompletedJob, SyncRun.after,
      ReasonJobCompleted]
  · simpa [Owner.SetFinalizers, Owner.GetFinalizers] using hnot
  · apply hhas
    simpa [Owner.SetFinalizers, Owner.GetFinalizers] using hnot
  · simp [jobSync.dispatch, jobSync.setOwnerStatusForCompletedJob, SyncRun.after,
      jobSync.callsUpToControlJobs, List.countP_cons, Call.isOnJobCompletion]

theorem sync_succeeded_deleting_witness :
    (Example.engine true Example.dyingOwner .JobControlJobSucceeded none).Reaches
        "ns/cluster" Example.dyingOwner true "deprovision" .JobControlJobSucceeded none ∧
      ((Example.engine true Example.dyingOwner .JobControlJobSucceeded none).Sync
        "ns/cluster").calls.countP Call.isOnJobCompletion = 0 :=
  have hr : (Example.engine true Example.dyingOwner .JobControlJobSucceeded none).Reaches
      "ns/cluster" Example.dyingOwner true "deprovision" .JobControlJobSucceeded none :=
    ⟨rfl, fun hd => absurd hd (by decide), fun _ => ⟨by decide, rfl, by decide⟩, rfl, rfl⟩
  ⟨hr, (sync_succeeded_deleting _ _ _ _ _ hr).2.2.2.2.2⟩

/-- C3: for every owner and every job, when `ControlJobs` returns `Working` with
that job, `Sync` sets on the copy the condition `Processing=True` (`Undoing=True`
when deleting) with reason `"JobRunning"` and the update policy
`IfReasonOrMessageChange`, sets the current job to the name of the job, and
returns what `UpdateOwnerStatus(original, copy)` returns; it sets no other
condition. -/
theorem sync_working (s : jobSync α F) (key : String) (owner : Owner α) (deleting : Bool)
    (jobFactory : F) (job : Job)
    (h : s.Reaches key owner deleting jobFactory .JobControlJobWorking (some job)) :
    let workingCondition : JobSyncConditionType :=
      if deleting then .JobSyncUndoing else .JobSyncProcessing
    let copy0 := s.strategy.DeepCopyOwner owner
    let copy1 := s.strategy.SetOwnerJobSyncCondition copy0 workingCondition
      .ConditionTrue "JobRunning" "Job running" .UpdateConditionIfReasonOrMessageChange
    let copy2 := s.strategy.SetOwnerCurrentJob copy1 job.Name
    (s.Sync key).ret = s.strategy.UpdateOwnerStatus owner copy2 ∧
    (s.Sync key).calls = s.callsUpToControlJobs key owner deleting jobFactory ++ [
      .DeepCopyOwner owner,
      .SetOwnerJobSyncCondition copy0 workingCondition .ConditionTrue "JobRunning"
        "Job running" .UpdateConditionIfReasonOrMessageChange,
      .SetOwnerCurrentJob copy1 job.Name,
      .UpdateOwnerStatus owner copy2] ∧
    (s.Sync key).calls.countP Call.isSetOwnerJobSyncCondition = 1 ∧
    (s.Sync key).calls.countP Call.isSetFinalizers = 0 ∧
    (s.Sync key).calls.countP Call.isOnJobCompletion = 0 ∧
    (s.Sync key).calls.countP Call.isOnJobFailure = 0 := by
  rw [Sync_eq_dispatch s key owner deleting jobFactory _ _ h]
  cases deleting <;>
    simp [jobSync.dispatch, jobSync.setOwnerStatusForInProgressJob, SyncRun.after,
      jobSync.callsUpToControlJobs, ReasonJobRunning, List.countP_cons,
      Call.isSetOwnerJobSyncCondition, Call.isSetFinalizers, Call.isOnJobCompletion,
      Call.isOnJobFailure]

theorem sync_working_witness :
    (Example.engine true Example.dyingOwner .JobControlJobWorking (some ⟨"job-x7"⟩)).Reaches
        "ns/cluster" Example.dyingOwner true "deprovision" .JobControlJobWorking
        (some ⟨"job-x7"⟩) ∧
      ((Example.engine true Example.dyingOwner .JobControlJobWorking (some ⟨"job-x7"⟩)).Sync
        "ns/cluster").calls.countP Call.isSetOwnerJobSyncCondition = 1 :=
  have hr : (Example.engine true Example.dyingOwner .JobControlJobWorking
      (some ⟨"job-x7"⟩)).Reaches "ns/cluster" Example.dyingOwner true "deprovision"
      .JobControlJobWorking (some ⟨"job-x7"⟩) :=
    ⟨rfl, fun hd => absurd hd (by decide), fun _ => ⟨by decide, rfl, by decide⟩, rfl, rfl⟩
  ⟨hr, (sync_working _ _ _ _ _ _ hr).2.2.1⟩

/-- C4: for every owner, when `ControlJobs` returns `LostCurrentJob`, `Sync` sets
on the copy `Processing=False` and `ProcessingFailed=True` (`Undoing=False` and
`UndoFailed=True` when deleting), both with reason `"JobMissing"`, clears the
current job, and calls `OnJobFailure` once when the owner is not being deleted
and never when it is. -/
theorem sync_lost_current_job (s : jobSync α F) (key : String) (owner : Owner α)
    (deleting : Bool) (jobFactory : F) (job : Option Job)
    (h : s.Reaches key owner deleting jobFactory .JobControlLostCurrentJob job) :
    let workingCondition : JobSyncConditionType :=
      if deleting then .JobSyncUndoing else .JobSyncProcessing
    let workingFailedCondition : JobSyncConditionType :=
      if deleting then .JobSyncUndoFailed else .JobSyncProcessingFailed
    let copy0 := s.strategy.DeepCopyOwner owner
    let copy1 := s.strategy.SetOwnerJobSyncCondition copy0 workingCondition
      .ConditionFalse "JobMissing" "Job not found." .UpdateConditionNever
    let copy2 := s.strategy.SetOwnerJobSyncCondition copy1 workingFailedCondition
      .ConditionTrue "JobMissing" "Job not found." .UpdateConditionAlways
    let copy3 := s.strategy.SetOwnerCurrentJob copy2 ""
    let copy4 := if deleting then copy3 else s.strategy.OnJobFailure copy3
    (s.Sync key).ret = s.strategy.UpdateOwnerStatus owner copy4 ∧
    (s.Sync key).calls = s.callsUpToControlJobs key owner deleting jobFactory ++ [
      .DeepCopyOwner owner,
      .SetOwnerJobSyncCondition copy0 workingCondition .ConditionFalse "JobMissing"
        "Job not found." .UpdateConditionNever,
      .SetOwnerJobSyncCondition copy1 workingFailedCondition .ConditionTrue "JobMissing"
        "Job not found." .UpdateConditionAlways,
      .SetOwnerCurrentJob copy2 ""]
      ++ (if deleting then [] else [.OnJobFailure copy3])
      ++ [.UpdateOwnerStatus owner copy4] ∧
    (s.Sync key).calls.countP Call.isOnJobFailure = (if deleting then 0 else 1) ∧
    ((s.Sync key).calls.countP Call.isOnJobFailure = 1 ↔
      owner.GetDeletionTimestamp = none) := by
  have hnd := h.notDeleting
  have hd := h.isDeleting
  rw [Sync_eq_dispatch s key owner deleting jobFactory _ _ h]
  cases deleting with
  | false =>
    simp [hnd rfl, jobSync.dispatch, jobSync.setOwnerStatusForLostJob, SyncRun.after,
      jobSync.callsUpToControlJobs, ReasonJobMissing, List.countP_cons, Call.isOnJobFailure]
  | true =>
    simp [(hd rfl).1, jobSync.dispatch, jobSync.setOwnerStatusForLostJob, SyncRun.after,
      jobSync.callsUpToControlJobs, ReasonJobMissing, List.countP_cons, Call.isOnJobFailure]

theorem sync_lost_current_job_witness :
    (Example.engine true Example.liveOwner .JobControlLostCurrentJob none).Reaches
        "ns/cluster" Example.liveOwner false "provision" .JobControlLostCurrentJob none ∧
      ((Example.engine true Example.liveOwner .JobControlLostCurrentJob none).Sync
        "ns/cluster").calls.countP Call.isOnJobFailure = (if false then 0 else 1) :=
  have hr : (Example.engine true Example.liveOwner .JobControlLostCurrentJob none).Reaches
      "ns/cluster" Example.liveOwner false "provision" .JobControlLostCurrentJob none :=
    ⟨rfl, fun _ => rfl, fun hd => absurd hd (by decide), rfl, rfl⟩
  ⟨hr, (sync_lost_current_job _ _ _ _ _ _ hr).2.2.1⟩

/-- C5: for every owner, when `ControlJobs` returns `CreatingJob` and undo on
delete is enabled: if the owner carries the engine finalizer, `Sync` returns nil
without copying, changing or writing an owner; otherwise it calls
`UpdateOwnerStatus(original, copy)` with a copy whose finalizers contain the
engine finalizer. When undo on delete is disabled, `Sync` returns nil without
copying, changing or writing an owner. -/
theorem sync_creating_job (s : jobSync α F) (key : String) (owner : Owner α)
    (deleting : Bool) (jobFactory : F) (job : Option Job)
    (h : s.Reaches key owner deleting jobFactory .JobControlCreatingJob job) :
    let copy0 := s.strategy.DeepCopyOwner owner
    let finalizers :=
      sets.List (sets.Insert (sets.NewString copy0.GetFinalizers) s.getFinalizerName)
    let copy1 := copy0.SetFinalizers finalizers
    (s.undoOnDelete = true → s.getFinalizerName ∈ owner.GetFinalizers →
      (s.Sync key).ret = none ∧
      (s.Sync key).calls =
        s.callsUpToControlJobs key owner deleting jobFactory ++ [.GetJobPrefix] ∧
      ∀ c ∈ (s.Sync key).calls, c.touchesOwner = false) ∧
    (s.undoOnDelete = true → s.getFinalizerName ∉ owner.GetFinalizers →
      (s.Sync key).ret = s.strategy.UpdateOwnerStatus owner copy1 ∧
      (s.Sync key).calls = s.callsUpToControlJobs key owner deleting jobFactory ++ [
        .GetJobPrefix,
        .DeepCopyOwner owner,
        .GetJobPrefix,
        .SetFinalizers copy0 finalizers,
        .UpdateOwnerStatus owner copy1] ∧
      s.getFinalizerName ∈ copy1.GetFinalizers ∧
      s.hasFinalizer copy1 = true) ∧
    (s.undoOnDelete = false →
      (s.Sync key).ret = none ∧
      (s.Sync key).calls = s.callsUpToControlJobs key owner deleting jobFactory ∧
      ∀ c ∈ (s.Sync key).calls, c.touchesOwner = false) := by
  have hpre := callsUpToControlJobs_touchesOwner s key owner deleting jobFactory
  rw [Sync_eq_dispatch s key owner deleting jobFactory _ _ h]
  refine ⟨?_, ?_, ?_⟩
  · intro hundo hmem
    have hfin := (hasFinalizer_eq_true_iff s owner).2 hmem
    refine ⟨?_, ?_, ?_⟩
    · simp [jobSync.dispatch, hundo, jobSync.addFinalizer, hfin, SyncRun.after]
    · simp [jobSync.dispatch, hundo, jobSync.addFinalizer, hfin, SyncRun.after]
    · intro c hc
      simp only [jobSync.dispatch, hundo, jobSync.addFinalizer, hfin, SyncRun.after,
        if_true, List.mem_append, List.mem_singleton] at hc
      rcases hc with hc | hc
      · exact hpre c hc
      · subst hc; rfl
  · intro hundo hmem
    have hfin := (hasFinalizer_eq_false_iff s owner).2 hmem
    have hin : s.getFinalizerName ∈ sets.List (sets.Insert
        (sets.NewString (s.strategy.DeepCopyOwner owner).GetFinalizers)
        s.getFinalizerName) := by
      simp [mem_sets_List, mem_sets_Insert]
    refine ⟨?_, ?_, ?_, ?_⟩
    · simp [jobSync.dispatch, hundo, jobSync.addFinalizer, hfin, SyncRun.after]
    · simp [jobSync.dispatch, hundo, jobSync.addFinalizer, hfin, SyncRun.after]
    · simpa [Owner.SetFinalizers, Owner.GetFinalizers] using hin
    · rw [hasFinalizer_eq_true_iff]
      simpa [Owner.SetFinalizers, Owner.GetFinalizers] using hin
  · intro hundo
    refine ⟨?_, ?_, ?_⟩
    · simp [jobSync.dispatch, hundo, SyncRun.after]
    · simp [jobSync.dispatch, hundo, SyncRun.after]
    · intro c hc
      simp only [jobSync.dispatch, hundo, SyncRun.after, List.append_nil] at hc
      exact hpre c (by simpa using hc)

theorem sync_creating_job_witness :
    (Example.engine true Example.freshOwner .JobControlCreatingJob none).Reaches
        "ns/cluster" Example.freshOwner false "provision" .JobControlCreatingJob none ∧
      (Example.engine true Example.freshOwner .JobControlCreatingJob none).hasFinalizer
        ((Example.strategy Example.freshOwner none).DeepCopyOwner
          Example.freshOwner |>.SetFinalizers
          (sets.List (sets.Insert (sets.NewString ((Example.strategy Example.freshOwner
            none).DeepCopyOwner Example.freshOwner).GetFinalizers)
            (Example.engine true Example.freshOwner .JobControlCreatingJob
              none).getFinalizerName))) = true :=
  have hr : (Example.engine true Example.freshOwner .JobControlCreatingJob none).Reaches
      "ns/cluster" Example.freshOwner false "provision" .JobControlCreatingJob none :=
    ⟨rfl, fun _ => rfl, fun hd => absurd hd (by decide), rfl, rfl⟩
  ⟨hr, ((sync_creating_job _ _ _ _ _ _ hr).2.1 rfl (by decide)).2.2.2⟩

/-- C6: for every owner, when `ControlJobs` returns `DeletingJobs`: if the
current job name recorded on the owner is not empty, `Sync` sets on the copy
`Processing=False` with reason `"SpecChanged"`, clears the current job and returns
what `UpdateOwnerStatus(original, copy)` returns; if it is empty, `Sync` returns
nil without copying, changing or writing an owner. -/
theorem sync_deleting_jobs (s : jobSync α F) (key : String) (owner : Owner α)
    (deleting : Bool) (jobFactory : F) (job : Option Job)
    (h : s.Reaches key owner deleting jobFactory .JobControlDeletingJobs job) :
    let copy0 := s.strategy.DeepCopyOwner owner
    let copy1 := s.strategy.SetOwnerJobSyncCondition copy0 .JobSyncProcessing
      .ConditionFalse "SpecChanged" "Spec changed. New job needed" .UpdateConditionNever
    let copy2 := s.strategy.SetOwnerCurrentJob copy1 ""
    (s.strategy.GetOwnerCurrentJob owner ≠ "" →
      (s.Sync key).ret = s.strategy.UpdateOwnerStatus owner copy2 ∧
      (s.Sync key).calls = s.callsUpToControlJobs key owner deleting jobFactory ++ [
        .DeepCopyOwner owner,
        .SetOwnerJobSyncCondition copy0 .JobSyncProcessing .ConditionFalse "SpecChanged"
          "Spec changed. New job needed" .UpdateConditionNever,
        .SetOwnerCurrentJob copy1 "",
        .UpdateOwnerStatus owner copy2]) ∧
    (s.strategy.GetOwnerCurrentJob owner = "" →
      (s.Sync key).ret = none ∧
      (s.Sync key).calls = s.callsUpToControlJobs key owner deleting jobFactory ∧
      ∀ c ∈ (s.Sync key).calls, c.touchesOwner = false) := by
  have hpre := callsUpToControlJobs_touchesOwner s key owner deleting jobFactory
  rw [Sync_eq_dispatch s key owner deleting jobFactory _ _ h]
  refine ⟨?_, ?_⟩
  · intro hcur
    simp [jobSync.dispatch, hcur, jobSync.setOwnerStatusForOutdatedJob, SyncRun.after,
      ReasonSpecChanged]
  · intro hcur
    refine ⟨?_, ?_, ?_⟩
    · simp [jobSync.dispatch, hcur, SyncRun.after]
    · simp [jobSync.dispatch, hcur, SyncRun.after]
    · intro c hc
      simp only [jobSync.dispatch, hcur, SyncRun.after, if_true, List.append_nil] at hc
      exact hpre c hc

theorem sync_deleting_jobs_witness :
    (Example.engine true Example.liveOwner .JobControlDeletingJobs none).Reaches
        "ns/cluster" Example.liveOwner false "provision" .JobControlDeletingJobs none ∧
      ((Example.engine true Example.liveOwner .JobControlDeletingJobs none).Sync
        "ns/cluster").ret = none :=
  have hr : (Example.engine true Example.liveOwner .JobControlDeletingJobs none).Reaches
      "ns/cluster" Example.liveOwner false "provision" .JobControlDeletingJobs none :=
    ⟨rfl, fun _ => rfl, fun hd => absurd hd (by decide), rfl, rfl⟩
  ⟨hr, ((sync_deleting_jobs _ _ _ _ _ _ hr).1 (by decide)).1⟩

/-- C7: for every owner, when `ControlJobs` returns `Failed`, the only change
`Sync` makes to the copy is setting the current job to the empty string: it sets
no condition, calls neither `OnJobFailure` nor `OnJobCompletion`, does not set
the finalizers, and returns what `UpdateOwnerStatus(original, copy)` returns. -/
theorem sync_failed (s : jobSync α F) (key : String) (owner : Owner α) (deleting : Bool)
    (jobFactory : F) (job : Option Job)
    (h : s.Reaches key owner deleting jobFactory .JobControlJobFailed job) :
    let copy0 := s.strategy.DeepCopyOwner owner
    let copy1 := s.strategy.SetOwnerCurrentJob copy0 ""
    (s.Sync key).ret = s.strategy.UpdateOwnerStatus owner copy1 ∧
    (s.Sync key).calls = s.callsUpToControlJobs key owner deleting jobFactory ++ [
      .DeepCopyOwner owner,
      .SetOwnerCurrentJob copy0 "",
      .UpdateOwnerStatus owner copy1] ∧
    (s.Sync key).calls.countP Call.isSetOwnerCurrentJob = 1 ∧
    (s.Sync key).calls.countP Call.isSetOwnerJobSyncCondition = 0 ∧
    (s.Sync key).calls.countP Call.isOnJobFailure = 0 ∧
    (s.Sync key).calls.countP Call.isOnJobCompletion = 0 ∧
    (s.Sync key).calls.countP Call.isSetFinalizers = 0 := by
  rw [Sync_eq_dispatch s key owner deleting jobFactory _ _ h]
  cases deleting <;>
    simp [jobSync.dispatch, jobSync.setOwnerStatusForFailedJob, SyncRun.after,
      jobSync.callsUpToControlJobs, List.countP_cons, Call.isSetOwnerCurrentJob,
      Call.isSetOwnerJobSyncCondition, Call.isSetFinalizers, Call.isOnJobCompletion,
      Call.isOnJobFailure]

theorem sync_failed_witness :
    (Example.engine false Example.liveOwner .JobControlJobFailed none).Reaches
        "ns/cluster" Example.liveOwner false "provision" .JobControlJobFailed none ∧
      ((Example.engine false Example.liveOwner .JobControlJobFailed none).Sync
        "ns/cluster").calls.countP Call.isSetOwnerCurrentJob = 1 :=
  have hr : (Example.engine false Example.liveOwner .JobControlJobFailed none).Reaches
      "ns/cluster" Example.liveOwner false "provision" .JobControlJobFailed none :=
    ⟨rfl, fun _ => rfl, fun hd => absurd hd (by decide), rfl, rfl⟩
  ⟨hr, (sync_failed _ _ _ _ _ _ hr).2.2.1⟩

/-- C8: for every owner, when `ControlJobs` returns `PendingExpectations` or
`NoWork`, `Sync` returns nil and has called neither `DeepCopyOwner`, nor a setter
on an owner, nor `OnJobCompletion` or `OnJobFailure`, nor `UpdateOwnerStatus`. -/
theorem sync_pending_or_no_work (s : jobSync α F) (key : String) (owner : Owner α)
    (deleting : Bool) (jobFactory : F) (result : JobControlResult) (job : Option Job)
    (hres : result = .JobControlPendingExpectations ∨ result = .JobControlNoWork)
    (h : s.Reaches key owner deleting jobFactory result job) :
    (s.Sync key).ret = none ∧
    (s.Sync key).calls = s.callsUpToControlJobs key owner deleting jobFactory ∧
    ∀ c ∈ (s.Sync key).calls,
      c.isDeepCopyOwner = false ∧ c.isSetOwnerJobSyncCondition = false ∧
      c.isSetOwnerCurrentJob = false ∧ c.isSetFinalizers = false ∧
      c.isOnJobCompletion = false ∧ c.isOnJobFailure = false ∧
      c.isUpdateOwnerStatus = false := by
  have hpre := callsUpToControlJobs_touchesOwner s key owner deleting jobFactory
  rw [Sync_eq_dispatch s key owner deleting jobFactory _ _ h]
  have hrun : s.dispatch owner deleting (s.strategy.GetOwnerCurrentJob owner) result job =
      { ret := none, calls := [] } := by
    rcases hres with hres | hres <;> subst hres <;> rfl
  rw [hrun]
  refine ⟨rfl, by simp [SyncRun.after], ?_⟩
  intro c hc
  have hc2 : c ∈ s.callsUpToControlJobs key owner deleting jobFactory := by
    simpa [SyncRun.after] using hc
  have := hpre c hc2
  simp only [Call.touchesOwner, Bool.or_eq_false_iff] at this
  tauto

theorem sync_pending_or_no_work_witness :
    (Example.engine true Example.dyingOwner .JobControlPendingExpectations none).Reaches
        "ns/cluster" Example.dyingOwner true "deprovision" .JobControlPendingExpectations
        none ∧
      ((Example.engine true Example.dyingOwner .JobControlPendingExpectations none).Sync
        "ns/cluster").ret = none :=
  have hr : (Example.engine true Example.dyingOwner .JobControlPendingExpectations
      none).Reaches "ns/cluster" Example.dyingOwner true "deprovision"
      .JobControlPendingExpectations none :=
    ⟨rfl, fun hd => absurd hd (by decide), fun _ => ⟨by decide, rfl, by decide⟩, rfl, rfl⟩
  ⟨hr, (sync_pending_or_no_work _ _ _ _ _ _ _ (Or.inl rfl) hr).1⟩

/-! ## Before `ControlJobs` -/

/-- C9: for every key, if `GetOwner(key)` returns a not-found error, `Sync` calls
`ObserveOwnerDeletion(key)` once, with that key, returns nil, and calls neither
`ControlJobs` nor `UpdateOwnerStatus`. -/
theorem sync_owner_not_found (s : jobSync α F) (key : String) (err : GoError)
    (hget : s.strategy.GetOwner key = .error err) (hnf : errors.IsNotFound err = true) :
    (s.Sync key).ret = none ∧
    (s.Sync key).calls = [.GetOwner key, .ObserveOwnerDeletion key] ∧
    (s.Sync key).calls.countP Call.isObserveOwnerDeletion = 1 ∧
    (s.Sync key).calls.countP Call.isControlJobs = 0 ∧
    (s.Sync key).calls.countP Call.isUpdateOwnerStatus = 0 := by
  simp [jobSync.Sync, hget, hnf, List.countP_cons, Call.isObserveOwnerDeletion,
    Call.isControlJobs, Call.isUpdateOwnerStatus]

theorem sync_owner_not_found_witness :
    (Example.strategy Example.liveOwner none).GetOwner "ns/gone" =
        .error { notFound := true, message := "cluster not found" } ∧
      ((Example.engine true Example.liveOwner .JobControlNoWork none).Sync "ns/gone").calls =
        [.GetOwner "ns/gone", .ObserveOwnerDeletion "ns/gone"] :=
  ⟨rfl, (sync_owner_not_found (Example.engine true Example.liveOwner .JobControlNoWork none)
    "ns/gone" { notFound := true, message := "cluster not found" } rfl rfl).2.1⟩

/-- C10: for every owner with a deletion timestamp: if undo on delete is disabled
or the finalizers of the owner do not contain the engine finalizer, `Sync`
returns nil and calls neither `ControlJobs`, nor `GetJobFactory`, nor
`UpdateOwnerStatus`; otherwise `Sync` goes on with `deleting = true`: it asks for
the job factory with `deleting = true` and, given one, calls `ControlJobs` with
`needsProcessing = true`. -/
theorem sync_deletion_check (s : jobSync α F) (key : String) (owner : Owner α)
    (hget : s.strategy.GetOwner key = .ok owner)
    (hts : owner.GetDeletionTimestamp ≠ none) :
    ((s.undoOnDelete = false ∨ s.getFinalizerName ∉ owner.GetFinalizers) →
      (s.Sync key).ret = none ∧
      (s.Sync key).calls =
        (if s.undoOnDelete then [.GetOwner key, .GetJobPrefix] else [.GetOwner key]) ∧
      (s.Sync key).calls.countP Call.isControlJobs = 0 ∧
      (s.Sync key).calls.countP Call.isGetJobFactory = 0 ∧
      (s.Sync key).calls.countP Call.isUpdateOwnerStatus = 0) ∧
    ((s.undoOnDelete = true ∧ s.getFinalizerName ∈ owner.GetFinalizers) →
      s.Sync key = (s.syncOwner key owner true).after [.GetOwner key, .GetJobPrefix] ∧
      Call.GetJobFactory owner true ∈ (s.Sync key).calls ∧
      ∀ jobFactory, s.strategy.GetJobFactory owner true = .ok jobFactory →
        Call.ControlJobs key owner (s.strategy.GetOwnerCurrentJob owner) true jobFactory ∈
          (s.Sync key).calls) := by
  refine ⟨?_, ?_⟩
  · intro hor
    cases hundo : s.undoOnDelete with
    | false =>
      simp [jobSync.Sync, hget, hts, hundo, List.countP_cons, Call.isControlJobs,
        Call.isGetJobFactory, Call.isUpdateOwnerStatus]
    | true =>
      have hmem : s.getFinalizerName ∉ owner.GetFinalizers := by
        rcases hor with hor | hor
        · rw [hundo] at hor; exact absurd hor (by decide)
        · exact hor
      have hfin := (hasFinalizer_eq_false_iff s owner).2 hmem
      simp [jobSync.Sync, hget, hts, hundo, hfin, List.countP_cons, Call.isControlJobs,
        Call.isGetJobFactory, Call.isUpdateOwnerStatus]
  · rintro ⟨hundo, hmem⟩
    have hfin := (hasFinalizer_eq_true_iff s owner).2 hmem
    have hsync : s.Sync key =
        (s.syncOwner key owner true).after [.GetOwner key, .GetJobPrefix] := by
      simp [jobSync.Sync, hget, hts, hundo, hfin]
    refine ⟨hsync, ?_, ?_⟩
    · rw [hsync]
      cases hfac : s.strategy.GetJobFactory owner true with
      | error e => simp [jobSync.syncOwner, hfac, SyncRun.after]
      | ok f =>
        cases hctl : s.jobControl.ControlJobs key owner (s.strategy.GetOwnerCurrentJob owner)
            true f with
        | error e => simp [jobSync.syncOwner, hfac, hctl, SyncRun.after]
        | ok r => simp [jobSync.syncOwner, hfac, hctl, SyncRun.after]
    · intro f hfac
      rw [hsync]
      cases hctl : s.jobControl.ControlJobs key owner (s.strategy.GetOwnerCurrentJob owner)
          true f with
      | error e => simp [jobSync.syncOwner, hfac, hctl, SyncRun.after]
      | ok r => simp [jobSync.syncOwner, hfac, hctl, SyncRun.after]

theorem sync_deletion_check_witness :
    (Example.strategy Example.foreignOwner none).GetOwner "ns/cluster" =
        .ok Example.foreignOwner ∧
      Example.foreignOwner.GetDeletionTimestamp ≠ none ∧
      ((Example.engine true Example.foreignOwner .JobControlJobSucceeded none).Sync
        "ns/cluster").ret = none :=
  ⟨rfl, by decide,
    ((sync_deletion_check (Example.engine true Example.foreignOwner .JobControlJobSucceeded
      none) "ns/cluster" Example.foreignOwner rfl (by decide)).1
      (Or.inr (by decide))).1⟩

/-! ## Every run of `Sync` -/

/-- A run of `Sync` in which `GetJobFactory` fails. -/
theorem Sync_of_getJobFactory_error (s : jobSync α F) (key : String) (owner : Owner α)
    (deleting : Bool) (err : GoError)
    (hget : s.strategy.GetOwner key = .ok owner)
    (hpass : s.PassesDeletionCheck owner deleting)
    (hfac : s.strategy.GetJobFactory owner deleting = .error err) :
    s.Sync key =
      { ret := some err, calls := s.callsUpToGetJobFactory key owner deleting } := by
  cases deleting with
  | false =>
    have hts := hpass.notDeleting rfl
    simp [jobSync.Sync, hget, hts, jobSync.syncOwner, hfac, SyncRun.after,
      jobSync.callsUpToGetJobFactory]
  | true =>
    obtain ⟨hts, hundo, hfin⟩ := hpass.isDeleting rfl
    simp [jobSync.Sync, hget, hts, hundo, hfin, jobSync.syncOwner, hfac, SyncRun.after,
      jobSync.callsUpToGetJobFactory]

/-- A run of `Sync` in which `ControlJobs` fails. -/
theorem Sync_of_controlJobs_error (s : jobSync α F) (key : String) (owner : Owner α)
    (deleting : Bool) (jobFactory : F) (err : GoError)
    (hget : s.strategy.GetOwner key = .ok owner)
    (hpass : s.PassesDeletionCheck owner deleting)
    (hfac : s.strategy.GetJobFactory owner deleting = .ok jobFactory)
    (hctl : s.jobControl.ControlJobs key owner (s.strategy.GetOwnerCurrentJob owner)
      (deleting || s.strategy.DoesOwnerNeedProcessing owner) jobFactory = .error err) :
    s.Sync key =
      { ret := some err, calls := s.callsUpToControlJobs key owner deleting jobFactory } := by
  cases deleting with
  | false =>
    have hts := hpass.notDeleting rfl
    simp only [Bool.false_or] at hctl
    simp [jobSync.Sync, hget, hts, jobSync.syncOwner, hfac, hctl, SyncRun.after,
      jobSync.callsUpToControlJobs]
  | true =>
    obtain ⟨hts, hundo, hfin⟩ := hpass.isDeleting rfl
    simp only [Bool.true_or] at hctl
    simp [jobSync.Sync, hget, hts, hundo, hfin, jobSync.syncOwner, hfac, hctl, SyncRun.after,
      jobSync.callsUpToControlJobs]

/-- The shapes a run of `Sync` can have once the owner is loaded and through
the deletion check. -/
theorem Sync_cases_after_check (s : jobSync α F) (key : String) (owner : Owner α)
    (deleting : Bool) (hget : s.strategy.GetOwner key = .ok owner)
    (hpass : s.PassesDeletionCheck owner deleting) :
    (∃ err, s.strategy.GetJobFactory owner deleting = .error err ∧
      s.Sync key = { ret := some err,
                     calls := s.callsUpToGetJobFactory key owner deleting }) ∨
    (∃ jobFactory err, s.strategy.GetJobFactory owner deleting = .ok jobFactory ∧
      s.jobControl.ControlJobs key owner (s.strategy.GetOwnerCurrentJob owner)
        (deleting || s.strategy.DoesOwnerNeedProcessing owner) jobFactory = .error err ∧
      s.Sync key = { ret := some err,
                     calls := s.callsUpToControlJobs key owner deleting jobFactory }) ∨
    (∃ jobFactory result job,
      s.Reaches key owner deleting jobFactory result job ∧
      s.Sync key =
        (s.dispatch owner deleting (s.strategy.GetOwnerCurrentJob owner) result job).after
          (s.callsUpToControlJobs key owner deleting jobFactory)) := by
  cases hfac : s.strategy.GetJobFactory owner deleting with
  | error err =>
    exact Or.inl ⟨err, rfl, Sync_of_getJobFactory_error s key owner deleting err hget hpass hfac⟩
  | ok jobFactory =>
    cases hctl : s.jobControl.ControlJobs key owner (s.strategy.GetOwnerCurrentJob owner)
        (deleting || s.strategy.DoesOwnerNeedProcessing owner) jobFactory with
    | error err =>
      exact Or.inr (Or.inl ⟨jobFactory, err, rfl, hctl,
        Sync_of_controlJobs_error s key owner deleting jobFactory err hget hpass hfac hctl⟩)
    | ok r =>
      have hreach : s.Reaches key owner deleting jobFactory r.1 r.2 :=
        ⟨hget, hpass.notDeleting, hpass.isDeleting, hfac, hctl⟩
      exact Or.inr (Or.inr ⟨jobFactory, r.1, r.2, hreach,
        Sync_eq_dispatch s key owner deleting jobFactory r.1 r.2 hreach⟩)

/-- The shapes a run of `Sync` can have. -/
theorem Sync_cases (s : jobSync α F) (key : String) :
    (∃ err, s.strategy.GetOwner key = .error err ∧ errors.IsNotFound err = true ∧
      s.Sync key = { ret := none, calls := [.GetOwner key, .ObserveOwnerDeletion key] }) ∨
    (∃ err, s.strategy.GetOwner key = .error err ∧ errors.IsNotFound err = false ∧
      s.Sync key = { ret := some err, calls := [.GetOwner key] }) ∨
    (∃ owner, s.strategy.GetOwner key = .ok owner ∧ owner.GetDeletionTimestamp ≠ none ∧
      (s.undoOnDelete = false ∨ s.hasFinalizer owner = false) ∧
      s.Sync key = { ret := none, calls :=
        if s.undoOnDelete then [.GetOwner key, .GetJobPrefix] else [.GetOwner key] }) ∨
    (∃ owner deleting err, s.strategy.GetOwner key = .ok owner ∧
      s.PassesDeletionCheck owner deleting ∧
      s.strategy.GetJobFactory owner deleting = .error err ∧
      s.Sync key = { ret := some err,
                     calls := s.callsUpToGetJobFactory key owner deleting }) ∨
    (∃ owner deleting jobFactory err, s.strategy.GetOwner key = .ok owner ∧
      s.PassesDeletionCheck owner deleting ∧
      s.strategy.GetJobFactory owner deleting = .ok jobFactory ∧
      s.jobControl.ControlJobs key owner (s.strategy.GetOwnerCurrentJob owner)
        (deleting || s.strategy.DoesOwnerNeedProcessing owner) jobFactory = .error err ∧
      s.Sync key = { ret := some err,
                     calls := s.callsUpToControlJobs key owner deleting jobFactory }) ∨
    (∃ owner deleting jobFactory result job,
      s.Reaches key owner deleting jobFactory result job ∧
      s.Sync key =
        (s.dispatch owner deleting (s.strategy.GetOwnerCurrentJob owner) result job).after
          (s.callsUpToControlJobs key owner deleting jobFactory)) := by
  cases hget : s.strategy.GetOwner key with
  | error err =>
    cases hnf : errors.IsNotFound err with
    | true => exact Or.inl ⟨err, rfl, hnf, by simp [jobSync.Sync, hget, hnf]⟩
    | false => exact Or.inr (Or.inl ⟨err, rfl, hnf, by simp [jobSync.Sync, hget, hnf]⟩)
  | ok owner =>
    by_cases hts : owner.GetDeletionTimestamp = none
    · have hpass : s.PassesDeletionCheck owner false :=
        ⟨fun _ => hts, fun hd => absurd hd (by decide)⟩
      rcases Sync_cases_after_check s key owner false hget hpass with
        ⟨err, hfac, hrun⟩ | ⟨f, err, hfac, hctl, hrun⟩ | ⟨f, result, job, hreach, hrun⟩
      · exact Or.inr (Or.inr (Or.inr (Or.inl ⟨owner, false, err, rfl, hpass, hfac, hrun⟩)))
      · exact Or.inr (Or.inr (Or.inr (Or.inr (Or.inl
          ⟨owner, false, f, err, rfl, hpass, hfac, hctl, hrun⟩))))
      · exact Or.inr (Or.inr (Or.inr (Or.inr (Or.inr
          ⟨owner, false, f, result, job, hreach, hrun⟩))))
    · cases hundo : s.undoOnDelete with
      | false =>
        exact Or.inr (Or.inr (Or.inl
          ⟨owner, rfl, hts, Or.inl rfl, by simp [jobSync.Sync, hget, hts, hundo]⟩))
      | true =>
        cases hfin : s.hasFinalizer owner with
        | false =>
          exact Or.inr (Or.inr (Or.inl
            ⟨owner, rfl, hts, Or.inr hfin,
              by simp [jobSync.Sync, hget, hts, hundo, hfin]⟩))
        | true =>
          have hpass : s.PassesDeletionCheck owner true :=
            ⟨fun hd => absurd hd (by decide), fun _ => ⟨hts, hundo, hfin⟩⟩
          rcases Sync_cases_after_check s key owner true hget hpass with
            ⟨err, hfac, hrun⟩ | ⟨f, err, hfac, hctl, hrun⟩ | ⟨f, result, job, hreach, hrun⟩
          · exact Or.inr (Or.inr (Or.inr (Or.inl ⟨owner, true, err, rfl, hpass, hfac, hrun⟩)))
          · exact Or.inr (Or.inr (Or.inr (Or.inr (Or.inl
              ⟨owner, true, f, err, rfl, hpass, hfac, hctl, hrun⟩))))
          · exact Or.inr (Or.inr (Or.inr (Or.inr (Or.inr
              ⟨owner, true, f, result, job, hreach, hrun⟩))))

/-! ## The finalizer name -/

/-- C14: for every job prefix, the engine finalizer name is
`"openshift/cluster-operator-"`, then the prefix, then `"1"`: a function of the
prefix alone, whose last character is the alphanumeric `1` whatever the prefix
ends in. -/
theorem finalizer_name_of_prefix (s : jobSync α F) :
    s.getFinalizerName = "openshift/cluster-operator-" ++ s.jobControl.GetJobPrefix ++ "1" ∧
    s.getFinalizerName.toList =
      "openshift/cluster-operator-".toList ++ s.jobControl.GetJobPrefix.toList ++ ['1'] ∧
    s.getFinalizerName.toList.getLast? = some '1' ∧
    Char.isAlphanum '1' = true := by
  have hlist : s.getFinalizerName.toList =
      "openshift/cluster-operator-".toList ++ s.jobControl.GetJobPrefix.toList ++ ['1'] := by
    simp [jobSync.getFinalizerName, String.toList]
  refine ⟨rfl, hlist, ?_, by decide⟩
  rw [hlist]
  exact List.getLast?_append_of_ne_nil _ (by simp)

/-! ## Errors -/

/-- C15: if `ControlJobs` returns a result that is none of the eight known
outcomes, `Sync` returns an error; if it returns `Working` without a job, `Sync`
returns an error; in both cases `Sync` calls neither `DeepCopyOwner`, nor a
setter, nor `UpdateOwnerStatus`. -/
theorem sync_contract_violation (s : jobSync α F) (key : String) (owner : Owner α)
    (deleting : Bool) (jobFactory : F) (result : JobControlResult) (job : Option Job)
    (hbad : result.isKnown = false ∨ (result = .JobControlJobWorking ∧ job = none))
    (h : s.Reaches key owner deleting jobFactory result job) :
    (s.Sync key).ret ≠ none ∧
    (∀ v, result = .other v →
      (s.Sync key).ret = some (fmt.Errorf ("unknown job control result: " ++ v))) ∧
    (result = .JobControlJobWorking → (s.Sync key).ret = some (fmt.Errorf
      "job control result was that a job was working, but no job was returned")) ∧
    (s.Sync key).calls = s.callsUpToControlJobs key owner deleting jobFactory ∧
    ∀ c ∈ (s.Sync key).calls, c.touchesOwner = false := by
  have hpre := callsUpToControlJobs_touchesOwner s key owner deleting jobFactory
  rw [Sync_eq_dispatch s key owner deleting jobFactory _ _ h]
  rcases hbad with hbad | ⟨hres, hjob⟩
  · cases result with
    | other v =>
      refine ⟨by simp [jobSync.dispatch, SyncRun.after], ?_, ?_, ?_, ?_⟩
      · intro w hw
        cases hw
        simp [jobSync.dispatch, SyncRun.after]
      · intro hw; cases hw
      · simp [jobSync.dispatch, SyncRun.after]
      · intro c hc
        exact hpre c (by simpa [jobSync.dispatch, SyncRun.after] using hc)
    | _ => exact absurd hbad (by simp [JobControlResult.isKnown])
  · subst hres hjob
    refine ⟨by simp [jobSync.dispatch, jobSync.setOwnerStatusForInProgressJob, SyncRun.after],
      ?_, ?_, ?_, ?_⟩
    · intro w hw; cases hw
    · intro _
      simp [jobSync.dispatch, jobSync.setOwnerStatusForInProgressJob, SyncRun.after]
    · simp [jobSync.dispatch, jobSync.setOwnerStatusForInProgressJob, SyncRun.after]
    · intro c hc
      exact hpre c (by
        simpa [jobSync.dispatch, jobSync.setOwnerStatusForInProgressJob, SyncRun.after]
          using hc)

theorem sync_contract_violation_witness :
    (Example.engine true Example.liveOwner (.other "Paused") none).Reaches
        "ns/cluster" Example.liveOwner false "provision" (.other "Paused") none ∧
      ((Example.engine true Example.liveOwner (.other "Paused") none).Sync
        "ns/cluster").ret = some (fmt.Errorf ("unknown job control result: " ++ "Paused")) :=
  have hr : (Example.engine true Example.liveOwner (.other "Paused") none).Reaches
      "ns/cluster" Example.liveOwner false "provision" (.other "Paused") none :=
    ⟨rfl, fun _ => rfl, fun hd => absurd hd (by decide), rfl, rfl⟩
  ⟨hr, (sync_contract_violation (Example.engine true Example.liveOwner (.other "Paused") none)
    "ns/cluster" Example.liveOwner false "provision" (.other "Paused") none (Or.inl rfl)
    hr).2.1 "Paused" rfl⟩

/-- Within the `switch`, `UpdateOwnerStatus` is called on the loaded owner and its
result is what the `switch` returns. -/
theorem dispatch_UpdateOwnerStatus (s : jobSync α F) (owner : Owner α) (deleting : Bool)
    (currentJobName : String) (result : JobControlResult) (job : Option Job)
    (original copy : Owner α)
    (hc : Call.UpdateOwnerStatus original copy ∈
      (s.dispatch owner deleting currentJobName result job).calls) :
    original = owner ∧
    (s.dispatch owner deleting currentJobName result job).ret =
      s.strategy.UpdateOwnerStatus original copy := by
  cases result with
  | JobControlJobSucceeded =>
    cases deleting <;>
      simp [jobSync.dispatch, jobSync.setOwnerStatusForCompletedJob] at hc ⊢ <;>
      obtain ⟨rfl, rfl⟩ := hc <;> exact ⟨rfl, rfl⟩
  | JobControlJobWorking =>
    cases job with
    | none => simp [jobSync.dispatch, jobSync.setOwnerStatusForInProgressJob] at hc
    | some j =>
      simp [jobSync.dispatch, jobSync.setOwnerStatusForInProgressJob] at hc ⊢
      obtain ⟨rfl, rfl⟩ := hc
      exact ⟨rfl, rfl⟩
  | JobControlJobFailed =>
    simp [jobSync.dispatch, jobSync.setOwnerStatusForFailedJob] at hc ⊢
    obtain ⟨rfl, rfl⟩ := hc
    exact ⟨rfl, rfl⟩
  | JobControlCreatingJob =>
    cases hundo : s.undoOnDelete with
    | false => simp [jobSync.dispatch, hundo] at hc
    | true =>
      cases hfin : s.hasFinalizer owner with
      | true => simp [jobSync.dispatch, hundo, jobSync.addFinalizer, hfin] at hc
      | false =>
        simp [jobSync.dispatch, hundo, jobSync.addFinalizer, hfin] at hc ⊢
        obtain ⟨rfl, rfl⟩ := hc
        exact ⟨rfl, rfl⟩
  | JobControlDeletingJobs =>
    by_cases hcur : currentJobName = ""
    · simp [jobSync.dispatch, hcur] at hc
    · simp [jobSync.dispatch, hcur, jobSync.setOwnerStatusForOutdatedJob] at hc ⊢
      obtain ⟨rfl, rfl⟩ := hc
      exact ⟨rfl, rfl⟩
  | JobControlLostCurrentJob =>
    cases deleting <;>
      simp [jobSync.dispatch, jobSync.setOwnerStatusForLostJob] at hc ⊢ <;>
      obtain ⟨rfl, rfl⟩ := hc <;> exact ⟨rfl, rfl⟩
  | JobControlPendingExpectations => simp [jobSync.dispatch] at hc
  | JobControlNoWork => simp [jobSync.dispatch] at hc
  | other v => simp [jobSync.dispatch] at hc

/-- Every call within the `switch` copies, changes or writes an owner, or is
`GetJobPrefix`. -/
theorem dispatch_calls_kind (s : jobSync α F) (owner : Owner α) (deleting : Bool)
    (currentJobName : String) (result : JobControlResult) (job : Option Job) :
    ∀ c ∈ (s.dispatch owner deleting currentJobName result job).calls,
      c.touchesOwner = true ∨ c = .GetJobPrefix := by
  intro c hc
  cases result with
  | JobControlJobSucceeded =>
    cases deleting
    · simp [jobSync.dispatch, jobSync.setOwnerStatusForCompletedJob] at hc
      rcases hc with h | h | h | h | h | h | h <;> subst h <;>
        simp [Call.touchesOwner, Call.isDeepCopyOwner, Call.isSetOwnerJobSyncCondition,
          Call.isSetOwnerCurrentJob, Call.isOnJobCompletion, Call.isUpdateOwnerStatus]
    · simp [jobSync.dispatch, jobSync.setOwnerStatusForCompletedJob] at hc
      rcases hc with h | h | h | h | h | h | h | h <;> subst h <;>
        simp [Call.touchesOwner, Call.isDeepCopyOwner, Call.isSetOwnerJobSyncCondition,
          Call.isSetOwnerCurrentJob, Call.isSetFinalizers, Call.isUpdateOwnerStatus]
  | JobControlJobWorking =>
    cases job with
    | none => simp [jobSync.dispatch, jobSync.setOwnerStatusForInProgressJob] at hc
    | some j =>
      simp [jobSync.dispatch, jobSync.setOwnerStatusForInProgressJob] at hc
      rcases hc with h | h | h | h <;> subst h <;>
        simp [Call.touchesOwner, Call.isDeepCopyOwner, Call.isSetOwnerJobSyncCondition,
          Call.isSetOwnerCurrentJob, Call.isUpdateOwnerStatus]
  | JobControlJobFailed =>
    simp [jobSync.dispatch, jobSync.setOwnerStatusForFailedJob] at hc
    rcases hc with h | h | h <;> subst h <;>
      simp [Call.touchesOwner, Call.isDeepCopyOwner, Call.isSetOwnerCurrentJob,
        Call.isUpdateOwnerStatus]
  | JobControlCreatingJob =>
    cases hundo : s.undoOnDelete with
    | false => simp [jobSync.dispatch, hundo] at hc
    | true =>
      cases hfin : s.hasFinalizer owner with
      | true =>
        simp [jobSync.dispatch, hundo, jobSync.addFinalizer, hfin] at hc
        exact Or.inr hc
      | false =>
        simp [jobSync.dispatch, hundo, jobSync.addFinalizer, hfin] at hc
        rcases hc with h | h | h | h | h <;> subst h <;>
          simp [Call.touchesOwner, Call.isDeepCopyOwner, Call.isSetFinalizers,
            Call.isUpdateOwnerStatus]
  | JobControlDeletingJobs =>
    by_cases hcur : currentJobName = ""
    · simp [jobSync.dispatch, hcur] at hc
    · simp [jobSync.dispatch, hcur, jobSync.setOwnerStatusForOutdatedJob] at hc
      rcases hc with h | h | h | h <;> subst h <;>
        simp [Call.touchesOwner, Call.isDeepCopyOwner, Call.isSetOwnerJobSyncCondition,
          Call.isSetOwnerCurrentJob, Call.isUpdateOwnerStatus]
  | JobControlLostCurrentJob =>
    cases deleting
    · simp [jobSync.dispatch, jobSync.setOwnerStatusForLostJob] at hc
      rcases hc with h | h | h | h | h | h <;> subst h <;>
        simp [Call.touchesOwner, Call.isDeepCopyOwner, Call.isSetOwnerJobSyncCondition,
          Call.isSetOwnerCurrentJob, Call.isOnJobFailure, Call.isUpdateOwnerStatus]
    · simp [jobSync.dispatch, jobSync.setOwnerStatusForLostJob] at hc
      rcases hc with h | h | h | h | h <;> subst h <;>
        simp [Call.touchesOwner, Call.isDeepCopyOwner, Call.isSetOwnerJobSyncCondition,
          Call.isSetOwnerCurrentJob, Call.isUpdateOwnerStatus]
  | JobControlPendingExpectations => simp [jobSync.dispatch] at hc
  | JobControlNoWork => simp [jobSync.dispatch] at hc
  | other v => simp [jobSync.dispatch] at hc

/-- Whenever `Sync` calls `UpdateOwnerStatus`, the first argument is the owner
that `GetOwner` gave and `Sync` returns the result of the call. -/
theorem Sync_UpdateOwnerStatus (s : jobSync α F) (key : String) (original copy : Owner α)
    (hc : Call.UpdateOwnerStatus original copy ∈ (s.Sync key).calls) :
    s.strategy.GetOwner key = .ok original ∧
    (s.Sync key).ret = s.strategy.UpdateOwnerStatus original copy := by
  have hno : ∀ owner deleting jobFactory,
      Call.UpdateOwnerStatus original copy ∉
        s.callsUpToControlJobs key owner deleting jobFactory := by
    intro owner deleting jobFactory hmem
    have := callsUpToControlJobs_touchesOwner s key owner deleting jobFactory _ hmem
    simp [Call.touchesOwner, Call.isUpdateOwnerStatus] at this
  rcases Sync_cases s key with ⟨err, _, _, hrun⟩ | ⟨err, _, _, hrun⟩ | ⟨owner, _, _, _, hrun⟩ |
    ⟨owner, deleting, err, _, _, _, hrun⟩ | ⟨owner, deleting, f, err, _, _, _, _, hrun⟩ |
    ⟨owner, deleting, f, result, job, hreach, hrun⟩
  · rw [hrun] at hc; simp at hc
  · rw [hrun] at hc; simp at hc
  · rw [hrun] at hc
    cases hundo : s.undoOnDelete <;> simp [hundo] at hc
  · rw [hrun] at hc
    cases deleting <;> simp [jobSync.callsUpToGetJobFactory] at hc
  · rw [hrun] at hc
    exact absurd hc (hno owner deleting f)
  · rw [hrun] at hc ⊢
    simp only [SyncRun.after, List.mem_append] at hc ⊢
    rcases hc with hc | hc
    · exact absurd hc (hno owner deleting f)
    · obtain ⟨ho, hret⟩ := dispatch_UpdateOwnerStatus s owner deleting _ result job _ _ hc
      subst ho
      exact ⟨hreach.getOwner, hret⟩

/-- The value of `deleting` that the deletion check lets an owner through with
is fixed by the owner. -/
theorem PassesDeletionCheck_deleting (s : jobSync α F) (owner : Owner α) (deleting : Bool)
    (hpass : s.PassesDeletionCheck owner deleting) :
    (decide (owner.GetDeletionTimestamp ≠ none) && s.undoOnDelete && s.hasFinalizer owner) =
      deleting := by
  cases deleting with
  | false => simp [hpass.notDeleting rfl]
  | true =>
    obtain ⟨hts, hundo, hfin⟩ := hpass.isDeleting rfl
    simp [hts, hundo, hfin]

/-- C16: errors of the strategy and of the job control are returned unchanged.
If `GetOwner` fails with an error that is not not-found, or `GetJobFactory`
fails, `Sync` returns that error and calls neither `ControlJobs` nor
`UpdateOwnerStatus`; if `ControlJobs` fails, `Sync` returns that error and does
not call `UpdateOwnerStatus`; if `UpdateOwnerStatus` returns an error, `Sync`
returns that error. -/
theorem sync_propagates_errors (s : jobSync α F) (key : String) :
    (∀ err, s.strategy.GetOwner key = .error err → errors.IsNotFound err = false →
      (s.Sync key).ret = some err ∧
      (s.Sync key).calls = [.GetOwner key] ∧
      (s.Sync key).calls.countP Call.isControlJobs = 0 ∧
      (s.Sync key).calls.countP Call.isUpdateOwnerStatus = 0) ∧
    (∀ owner deleting err, s.strategy.GetOwner key = .ok owner →
      s.PassesDeletionCheck owner deleting →
      s.strategy.GetJobFactory owner deleting = .error err →
      (s.Sync key).ret = some err ∧
      (s.Sync key).calls = s.callsUpToGetJobFactory key owner deleting ∧
      (s.Sync key).calls.countP Call.isControlJobs = 0 ∧
      (s.Sync key).calls.countP Call.isUpdateOwnerStatus = 0) ∧
    (∀ owner deleting jobFactory err, s.strategy.GetOwner key = .ok owner →
      s.PassesDeletionCheck owner deleting →
      s.strategy.GetJobFactory owner deleting = .ok jobFactory →
      s.jobControl.ControlJobs key owner (s.strategy.GetOwnerCurrentJob owner)
        (deleting || s.strategy.DoesOwnerNeedProcessing owner) jobFactory = .error err →
      (s.Sync key).ret = some err ∧
      (s.Sync key).calls = s.callsUpToControlJobs key owner deleting jobFactory ∧
      (s.Sync key).calls.countP Call.isUpdateOwnerStatus = 0) ∧
    (∀ original copy err, Call.UpdateOwnerStatus original copy ∈ (s.Sync key).calls →
      s.strategy.UpdateOwnerStatus original copy = some err →
      (s.Sync key).ret = some err) := by
  refine ⟨?_, ?_, ?_, ?_⟩
  · intro err hget hnf
    simp [jobSync.Sync, hget, hnf, List.countP_cons, Call.isControlJobs,
      Call.isUpdateOwnerStatus]
  · intro owner deleting err hget hpass hfac
    rw [Sync_of_getJobFactory_error s key owner deleting err hget hpass hfac]
    cases deleting <;>
      simp [jobSync.callsUpToGetJobFactory, List.countP_cons, Call.isControlJobs,
        Call.isUpdateOwnerStatus]
  · intro owner deleting jobFactory err hget hpass hfac hctl
    rw [Sync_of_controlJobs_error s key owner deleting jobFactory err hget hpass hfac hctl]
    cases deleting <;>
      simp [jobSync.callsUpToControlJobs, List.countP_cons, Call.isUpdateOwnerStatus]
  · intro original copy err hc herr
    rw [(Sync_UpdateOwnerStatus s key original copy hc).2, herr]

theorem sync_propagates_errors_witness :
    ((Model.strategy (fun _ => .error ⟨false, "timeout"⟩) 200).GetOwner "ns/cluster" =
        .error ⟨false, "timeout"⟩ ∧
      ((Model.engine true (Model.answering "job-" .JobControlNoWork none)
        (fun _ => .error ⟨false, "timeout"⟩) 200).Sync "ns/cluster").ret =
        some ⟨false, "timeout"⟩) ∧
    ((jobSync.Sync
        { jobControl :=
            { ControlJobs := fun _ _ _ _ _ => .error ⟨false, "no quota"⟩
              GetJobPrefix := "job-" }
          strategy := Model.strategy (fun _ => .ok Model.runningOwner) 200
          undoOnDelete := true } "ns/cluster").ret = some ⟨false, "no quota"⟩) ∧
    ((Example.strategy Example.liveOwner (some ⟨false, "conflict"⟩)).UpdateOwnerStatus
        Example.liveOwner
        { Example.liveOwner with rest := { Example.liveOwner.rest with currentJob := "" } } =
        some ⟨false, "conflict"⟩ ∧
      (jobSync.Sync
        { jobControl := Example.jobControl .JobControlJobFailed none
          strategy := Example.strategy Example.liveOwner (some ⟨false, "conflict"⟩)
          undoOnDelete := false } "ns/cluster").ret = some ⟨false, "conflict"⟩) :=
  ⟨⟨rfl, ((sync_propagates_errors
      (Model.engine true (Model.answering "job-" .JobControlNoWork none)
        (fun _ => .error ⟨false, "timeout"⟩) 200) "ns/cluster").1 ⟨false, "timeout"⟩ rfl
      rfl).1⟩,
    ((sync_propagates_errors
      { jobControl :=
          { ControlJobs := fun _ _ _ _ _ => .error ⟨false, "no quota"⟩
            GetJobPrefix := "job-" }
        strategy := Model.strategy (fun _ => .ok Model.runningOwner) 200
        undoOnDelete := true } "ns/cluster").2.2.1 Model.runningOwner false false
      ⟨false, "no quota"⟩ rfl ⟨fun _ => rfl, fun hd => absurd hd (by decide)⟩ rfl rfl).1,
    ⟨rfl, (sync_propagates_errors
      { jobControl := Example.jobControl .JobControlJobFailed none
        strategy := Example.strategy Example.liveOwner (some ⟨false, "conflict"⟩)
        undoOnDelete := false } "ns/cluster").2.2.2 Example.liveOwner
      { Example.liveOwner with rest := { Example.liveOwner.rest with currentJob := "" } }
      ⟨false, "conflict"⟩ (by decide) rfl⟩⟩

/-! ## What `ControlJobs` is called with -/

/-- C18: whenever `Sync` calls `ControlJobs`, it passes the key of the sync, the
owner that `GetOwner` gave, `GetOwnerCurrentJob(owner)` as the current job name,
`deleting || DoesOwnerNeedProcessing(owner)` as `needsProcessing`, and the job
factory that `GetJobFactory(owner, deleting)` gave, where `deleting` is true
exactly when the owner has a deletion timestamp, undo on delete is enabled and
the owner carries the engine finalizer. `needsProcessing` is true whenever
`deleting` is. -/
theorem sync_controlJobs_arguments (s : jobSync α F) (key : String) (k : String)
    (owner : Owner α) (currentJobName : String) (needsProcessing : Bool) (jobFactory : F)
    (hc : Call.ControlJobs k owner currentJobName needsProcessing jobFactory ∈
      (s.Sync key).calls) :
    k = key ∧
    s.strategy.GetOwner key = .ok owner ∧
    currentJobName = s.strategy.GetOwnerCurrentJob owner ∧
    needsProcessing =
      ((decide (owner.GetDeletionTimestamp ≠ none) && s.undoOnDelete && s.hasFinalizer owner)
        || s.strategy.DoesOwnerNeedProcessing owner) ∧
    s.strategy.GetJobFactory owner
      (decide (owner.GetDeletionTimestamp ≠ none) && s.undoOnDelete && s.hasFinalizer owner)
      = .ok jobFactory ∧
    ((decide (owner.GetDeletionTimestamp ≠ none) && s.undoOnDelete && s.hasFinalizer owner)
      = true → needsProcessing = true) := by
  have hfrom : ∀ o deleting f, s.strategy.GetOwner key = .ok o →
      s.PassesDeletionCheck o deleting → s.strategy.GetJobFactory o deleting = .ok f →
      Call.ControlJobs k owner currentJobName needsProcessing jobFactory ∈
        s.callsUpToControlJobs key o deleting f →
      k = key ∧
      s.strategy.GetOwner key = .ok owner ∧
      currentJobName = s.strategy.GetOwnerCurrentJob owner ∧
      needsProcessing =
        ((decide (owner.GetDeletionTimestamp ≠ none) && s.undoOnDelete &&
          s.hasFinalizer owner) || s.strategy.DoesOwnerNeedProcessing owner) ∧
      s.strategy.GetJobFactory owner
        (decide (owner.GetDeletionTimestamp ≠ none) && s.undoOnDelete &&
          s.hasFinalizer owner) = .ok jobFactory ∧
      ((decide (owner.GetDeletionTimestamp ≠ none) && s.undoOnDelete &&
        s.hasFinalizer owner) = true → needsProcessing = true) := by
    intro o deleting f hget hpass hfac hmem
    have hdel := PassesDeletionCheck_deleting s o deleting hpass
    cases deleting with
    | false =>
      simp [jobSync.callsUpToControlJobs] at hmem
      obtain ⟨rfl, rfl, rfl, rfl, rfl⟩ := hmem
      rw [hdel]
      exact ⟨rfl, hget, rfl, by simp, hfac, fun h => absurd h (by decide)⟩
    | true =>
      simp [jobSync.callsUpToControlJobs] at hmem
      obtain ⟨rfl, rfl, rfl, rfl, rfl⟩ := hmem
      rw [hdel]
      exact ⟨rfl, hget, rfl, by simp, hfac, fun _ => rfl⟩
  rcases Sync_cases s key with ⟨err, _, _, hrun⟩ | ⟨err, _, _, hrun⟩ | ⟨o, _, _, _, hrun⟩ |
    ⟨o, deleting, err, _, _, _, hrun⟩ | ⟨o, deleting, f, err, hget, hpass, hfac, _, hrun⟩ |
    ⟨o, deleting, f, result, job, hreach, hrun⟩
  · rw [hrun] at hc; simp at hc
  · rw [hrun] at hc; simp at hc
  · rw [hrun] at hc
    cases hundo : s.undoOnDelete <;> simp [hundo] at hc
  · rw [hrun] at hc
    cases deleting <;> simp [jobSync.callsUpToGetJobFactory] at hc
  · rw [hrun] at hc
    exact hfrom o deleting f hget hpass hfac hc
  · rw [hrun] at hc
    simp only [SyncRun.after, List.mem_append] at hc
    rcases hc with hc | hc
    · exact hfrom o deleting f hreach.getOwner ⟨hreach.notDeleting, hreach.isDeleting⟩
        hreach.getJobFactory hc
    · rcases dispatch_calls_kind s o deleting _ result job _ hc with h | h
      · simp [Call.touchesOwner, Call.isDeepCopyOwner, Call.isSetOwnerJobSyncCondition,
          Call.isSetOwnerCurrentJob, Call.isSetFinalizers, Call.isOnJobCompletion,
          Call.isOnJobFailure, Call.isUpdateOwnerStatus] at h
      · cases h

theorem sync_controlJobs_arguments_witness :
    Call.ControlJobs "ns/cluster" Example.dyingOwner "job-x7" true "deprovision" ∈
        ((Example.engine true Example.dyingOwner .JobControlJobWorking
          (some ⟨"job-x7"⟩)).Sync "ns/cluster").calls ∧
      (Example.strategy Example.dyingOwner none).DoesOwnerNeedProcessing
        Example.dyingOwner = false ∧
      (Example.strategy Example.dyingOwner none).GetJobFactory Example.dyingOwner
        (decide (Example.dyingOwner.GetDeletionTimestamp ≠ none) && true &&
          (Example.engine true Example.dyingOwner .JobControlJobWorking
            (some ⟨"job-x7"⟩)).hasFinalizer Example.dyingOwner) = .ok "deprovision" :=
  ⟨by decide, by decide,
    (sync_controlJobs_arguments (Example.engine true Example.dyingOwner .JobControlJobWorking
      (some ⟨"job-x7"⟩)) "ns/cluster" "ns/cluster" Example.dyingOwner "job-x7" true
      "deprovision" (by decide)).2.2.2.2.1⟩

/-! ## Finalizers as a set -/

theorem leString_isTotal : IsTotal String sets.leString :=
  ⟨fun a b => le_total a.toList b.toList⟩

theorem leString_isTrans : IsTrans String sets.leString :=
  ⟨fun _ _ _ hab hbc => le_trans hab hbc⟩

theorem nodup_sets_Insert (s : List String) (item : String) (h : s.Nodup) :
    (sets.Insert s item).Nodup := by
  unfold sets.Insert
  split
  · exact h
  · rename_i hmem
    rw [List.nodup_append]
    refine ⟨h, List.nodup_singleton item, ?_⟩
    intro x hx hx2
    rw [List.mem_singleton] at hx2
    subst hx2
    exact hmem hx

theorem nodup_foldl_sets_Insert (items acc : List String) (h : acc.Nodup) :
    (items.foldl sets.Insert acc).Nodup := by
  induction items generalizing acc with
  | nil => exact h
  | cons i rest ih => exact ih _ (nodup_sets_Insert acc i h)

theorem nodup_sets_NewString (items : List String) : (sets.NewString items).Nodup :=
  nodup_foldl_sets_Insert items [] List.nodup_nil

theorem nodup_sets_Delete (s : List String) (item : String) (h : s.Nodup) :
    (sets.Delete s item).Nodup :=
  List.Nodup.filter _ h

theorem nodup_sets_List (s : List String) (h : s.Nodup) : (sets.List s).Nodup :=
  (List.perm_insertionSort sets.leString s).nodup_iff.2 h

theorem sorted_sets_List (s : List String) : (sets.List s).Sorted sets.leString :=
  @List.sorted_insertionSort String sets.leString _ leString_isTotal leString_isTrans s

/-- A duplicate-free list in the order of `List()` ascends strictly. -/
theorem sorted_lt_sets_List (s : List String) (h : s.Nodup) :
    (sets.List s).Sorted (fun a b => a.toList < b.toList) := by
  have hs := sorted_sets_List s
  have hn := nodup_sets_List s h
  unfold List.Sorted at hs ⊢
  unfold List.Nodup at hn
  refine (hs.and hn).imp ?_
  intro a b hab
  obtain ⟨hle, hne⟩ := hab
  have hle2 : a.toList ≤ b.toList := hle
  rcases lt_or_eq_of_le hle2 with hlt | heq
  · exact hlt
  · exact absurd (String.ext heq) hne

/-- C19: the finalizers of other parties are kept as a set. The list that
`addFinalizer` writes has exactly the members of the finalizers `L` it read
together with the engine finalizer; the list written on `Succeeded` while
deleting has exactly the members of `L` other than the engine finalizer; both
lists ascend strictly, so are sorted and free of duplicates. -/
theorem finalizers_kept_as_set (s : jobSync α F) (original : Owner α) :
    (∀ (L : List String) (f : String),
      (∀ x, x ∈ sets.List (sets.Insert (sets.NewString L) f) ↔ x ∈ L ∨ x = f) ∧
      (sets.List (sets.Insert (sets.NewString L) f)).Sorted
        (fun a b => a.toList < b.toList) ∧
      (sets.List (sets.Insert (sets.NewString L) f)).Nodup ∧
      (∀ x, x ∈ sets.List (sets.Delete (sets.NewString L) f) ↔ x ∈ L ∧ x ≠ f) ∧
      (sets.List (sets.Delete (sets.NewString L) f)).Sorted
        (fun a b => a.toList < b.toList) ∧
      (sets.List (sets.Delete (sets.NewString L) f)).Nodup) ∧
    (∀ copy written, Call.SetFinalizers copy written ∈ (s.addFinalizer original).calls →
      written = sets.List (sets.Insert (sets.NewString copy.GetFinalizers)
        s.getFinalizerName) ∧
      (∀ x, x ∈ written ↔ x ∈ copy.GetFinalizers ∨ x = s.getFinalizerName)) ∧
    (∀ copy written,
      Call.SetFinalizers copy written ∈ (s.setOwnerStatusForCompletedJob original true).calls →
      written = sets.List (sets.Delete (sets.NewString copy.GetFinalizers)
        s.getFinalizerName) ∧
      (∀ x, x ∈ written ↔ x ∈ copy.GetFinalizers ∧ x ≠ s.getFinalizerName)) := by
  have hins : ∀ (L : List String) (f x : String),
      x ∈ sets.List (sets.Insert (sets.NewString L) f) ↔ x ∈ L ∨ x = f := by
    intro L f x
    rw [mem_sets_List, mem_sets_Insert, mem_sets_NewString]
  have hdel : ∀ (L : List String) (f x : String),
      x ∈ sets.List (sets.Delete (sets.NewString L) f) ↔ x ∈ L ∧ x ≠ f := by
    intro L f x
    rw [mem_sets_List, mem_sets_Delete, mem_sets_NewString]
  refine ⟨?_, ?_, ?_⟩
  · intro L f
    have h1 := nodup_sets_Insert _ f (nodup_sets_NewString L)
    have h2 := nodup_sets_Delete _ f (nodup_sets_NewString L)
    exact ⟨hins L f, sorted_lt_sets_List _ h1, nodup_sets_List _ h1,
      hdel L f, sorted_lt_sets_List _ h2, nodup_sets_List _ h2⟩
  · intro copy written hc
    cases hfin : s.hasFinalizer original with
    | true => simp [jobSync.addFinalizer, hfin] at hc
    | false =>
      simp [jobSync.addFinalizer, hfin] at hc
      obtain ⟨rfl, rfl⟩ := hc
      exact ⟨rfl, hins _ _⟩
  · intro copy written hc
    simp [jobSync.setOwnerStatusForCompletedJob] at hc
    obtain ⟨rfl, rfl⟩ := hc
    exact ⟨rfl, hdel _ _⟩

theorem finalizers_kept_as_set_witness :
    Call.SetFinalizers
        { Example.freshOwner with finalizers := ["zeta", "kubernetes", "zeta"] }
        ["kubernetes", "openshift/cluster-operator-job-1", "zeta"] ∈
      ((Example.engine true Example.freshOwner .JobControlCreatingJob none).addFinalizer
        { Example.freshOwner with finalizers := ["zeta", "kubernetes", "zeta"] }).calls ∧
    ∀ x, x ∈ ["kubernetes", "openshift/cluster-operator-job-1", "zeta"] ↔
      x ∈ (Owner.GetFinalizers
        { Example.freshOwner with finalizers := ["zeta", "kubernetes", "zeta"] }) ∨
      x = (Example.engine true Example.freshOwner .JobControlCreatingJob
        none).getFinalizerName :=
  ⟨by decide,
    ((finalizers_kept_as_set
      (Example.engine true Example.freshOwner .JobControlCreatingJob none)
      { Example.freshOwner with finalizers := ["zeta", "kubernetes", "zeta"] }).2.1
      { Example.freshOwner with finalizers := ["zeta", "kubernetes", "zeta"] }
      ["kubernetes", "openshift/cluster-operator-job-1", "zeta"] (by decide)).2⟩

/-! ## The copy and the original -/

/-- Calls that neither copy, change nor write an owner do not matter to
`followsCopy`. -/
theorem followsCopy_append (st : JobSyncStrategy α F) (original : Owner α)
    (current : Option (Owner α)) (before rest : List (Call α F))
    (hbefore : ∀ c ∈ before, c.touchesOwner = false) :
    followsCopy st original current (before ++ rest) ↔
      followsCopy st original current rest := by
  induction before with
  | nil => simp
  | cons c tail ih =>
    have hc := hbefore c (List.mem_cons_self c tail)
    have htail : ∀ d ∈ tail, d.touchesOwner = false :=
      fun d hd => hbefore d (List.mem_cons_of_mem c hd)
    cases c <;>
      simp [Call.touchesOwner, Call.isDeepCopyOwner, Call.isSetOwnerJobSyncCondition,
        Call.isSetOwnerCurrentJob, Call.isSetFinalizers, Call.isOnJobCompletion,
        Call.isOnJobFailure, Call.isUpdateOwnerStatus] at hc <;>
      simpa [followsCopy] using ih htail

/-- The `switch` changes only the copy of the owner it is given, and calls
`DeepCopyOwner` and `UpdateOwnerStatus` at most once each. -/
theorem dispatch_followsCopy (s : jobSync α F) (owner : Owner α) (deleting : Bool)
    (currentJobName : String) (result : JobControlResult) (job : Option Job) :
    followsCopy s.strategy owner none
      (s.dispatch owner deleting currentJobName result job).calls ∧
    (s.dispatch owner deleting currentJobName result job).calls.countP
      Call.isUpdateOwnerStatus ≤ 1 ∧
    (s.dispatch owner deleting currentJobName result job).calls.countP
      Call.isDeepCopyOwner ≤ 1 := by
  cases result with
  | JobControlJobSucceeded =>
    cases deleting <;>
      simp [jobSync.dispatch, jobSync.setOwnerStatusForCompletedJob, followsCopy,
        List.countP_cons, Call.isUpdateOwnerStatus, Call.isDeepCopyOwner]
  | JobControlJobWorking =>
    cases job <;>
      simp [jobSync.dispatch, jobSync.setOwnerStatusForInProgressJob, followsCopy,
        List.countP_cons, Call.isUpdateOwnerStatus, Call.isDeepCopyOwner]
  | JobControlJobFailed =>
    simp [jobSync.dispatch, jobSync.setOwnerStatusForFailedJob, followsCopy,
      List.countP_cons, Call.isUpdateOwnerStatus, Call.isDeepCopyOwner]
  | JobControlCreatingJob =>
    cases hundo : s.undoOnDelete <;> cases hfin : s.hasFinalizer owner <;>
      simp [jobSync.dispatch, hundo, jobSync.addFinalizer, hfin, followsCopy,
        List.countP_cons, Call.isUpdateOwnerStatus, Call.isDeepCopyOwner]
  | JobControlDeletingJobs =>
    by_cases hcur : currentJobName = "" <;>
      simp [jobSync.dispatch, hcur, jobSync.setOwnerStatusForOutdatedJob, followsCopy,
        List.countP_cons, Call.isUpdateOwnerStatus, Call.isDeepCopyOwner]
  | JobControlLostCurrentJob =>
    cases deleting <;>
      simp [jobSync.dispatch, jobSync.setOwnerStatusForLostJob, followsCopy,
        List.countP_cons, Call.isUpdateOwnerStatus, Call.isDeepCopyOwner]
  | JobControlPendingExpectations =>
    simp [jobSync.dispatch, followsCopy]
  | JobControlNoWork => simp [jobSync.dispatch, followsCopy]
  | other v => simp [jobSync.dispatch, followsCopy]

/-- C17: `Sync` applies no setter, hook or finalizer change to the owner that
`GetOwner` gave: every `SetOwnerJobSyncCondition`, `SetOwnerCurrentJob`,
`OnJobCompletion`, `OnJobFailure` and `SetFinalizers` call is made on the result
of `DeepCopyOwner(original)` as changed by the calls before it, and
`UpdateOwnerStatus` is called at most once, with the original as first argument
and that copy as second. -/
theorem sync_changes_only_the_copy (s : jobSync α F) (key : String) (original : Owner α)
    (hget : s.strategy.GetOwner key = .ok original) :
    followsCopy s.strategy original none (s.Sync key).calls ∧
    (s.Sync key).calls.countP Call.isUpdateOwnerStatus ≤ 1 ∧
    (s.Sync key).calls.countP Call.isDeepCopyOwner ≤ 1 ∧
    (∀ a b, Call.UpdateOwnerStatus a b ∈ (s.Sync key).calls → a = original) := by
  have hlast : ∀ a b, Call.UpdateOwnerStatus a b ∈ (s.Sync key).calls → a = original := by
    intro a b hc
    have h := (Sync_UpdateOwnerStatus s key a b hc).1
    rw [hget] at h
    injection h with h
    exact h.symm
  have hzero : ∀ (l : List (Call α F)) (p : Call α F → Bool),
      (∀ c ∈ l, c.touchesOwner = false) → (∀ c, p c = true → c.touchesOwner = true) →
      l.countP p = 0 := by
    intro l p hl hp
    rw [List.countP_eq_zero]
    intro c hc hpc
    have := hp c hpc
    rw [hl c hc] at this
    cases this
  have hupd : ∀ c : Call α F, c.isUpdateOwnerStatus = true → c.touchesOwner = true := by
    intro c hc; simp [Call.touchesOwner, hc]
  have hcopy : ∀ c : Call α F, c.isDeepCopyOwner = true → c.touchesOwner = true := by
    intro c hc; simp [Call.touchesOwner, hc]
  refine ⟨?_, ?_, ?_, hlast⟩
  all_goals
    rcases Sync_cases s key with ⟨err, he, _, hrun⟩ | ⟨err, he, _, hrun⟩ |
      ⟨owner, _, _, _, hrun⟩ | ⟨owner, deleting, err, _, _, _, hrun⟩ |
      ⟨owner, deleting, f, err, _, _, _, _, hrun⟩ |
      ⟨owner, deleting, f, result, job, hreach, hrun⟩
  · rw [hget] at he; cases he
  · rw [hget] at he; cases he
  · rw [hrun]
    cases s.undoOnDelete <;> simp [followsCopy]
  · rw [hrun]
    cases deleting <;> simp [jobSync.callsUpToGetJobFactory, followsCopy]
  · rw [hrun]
    cases deleting <;> simp [jobSync.callsUpToControlJobs, followsCopy]
  · have ho : owner = original := by
      have h := hreach.getOwner
      rw [hget] at h
      injection h with h
      exact h.symm
    subst ho
    rw [hrun]
    simp only [SyncRun.after]
    rw [followsCopy_append _ _ _ _ _ (callsUpToControlJobs_touchesOwner s key owner deleting f)]
    exact (dispatch_followsCopy s owner deleting _ result job).1
  · rw [hget] at he; cases he
  · rw [hget] at he; cases he
  · rw [hrun]
    cases s.undoOnDelete <;> simp [List.countP_cons, Call.isUpdateOwnerStatus]
  · rw [hrun]
    cases deleting <;>
      simp [jobSync.callsUpToGetJobFactory, List.countP_cons, Call.isUpdateOwnerStatus]
  · rw [hrun]
    cases deleting <;>
      simp [jobSync.callsUpToControlJobs, List.countP_cons, Call.isUpdateOwnerStatus]
  · rw [hrun]
    simp only [SyncRun.after, List.countP_append]
    rw [hzero _ _ (callsUpToControlJobs_touchesOwner s key owner deleting f) hupd, Nat.zero_add]
    exact (dispatch_followsCopy s owner deleting _ result job).2.1
  · rw [hget] at he; cases he
  · rw [hget] at he; cases he
  · rw [hrun]
    cases s.undoOnDelete <;> simp [List.countP_cons, Call.isDeepCopyOwner]
  · rw [hrun]
    cases deleting <;>
      simp [jobSync.callsUpToGetJobFactory, List.countP_cons, Call.isDeepCopyOwner]
  · rw [hrun]
    cases deleting <;>
      simp [jobSync.callsUpToControlJobs, List.countP_cons, Call.isDeepCopyOwner]
  · rw [hrun]
    simp only [SyncRun.after, List.countP_append]
    rw [hzero _ _ (callsUpToControlJobs_touchesOwner s key owner deleting f) hcopy, Nat.zero_add]
    exact (dispatch_followsCopy s owner deleting _ result job).2.2

theorem sync_changes_only_the_copy_witness :
    (Example.strategy Example.liveOwner none).GetOwner "ns/cluster" = .ok Example.liveOwner ∧
      followsCopy (Example.strategy Example.liveOwner none) Example.liveOwner none
        ((Example.engine true Example.liveOwner .JobControlLostCurrentJob none).Sync
          "ns/cluster").calls ∧
      ¬ followsCopy (Example.strategy Example.liveOwner none) Example.liveOwner none
        [.SetOwnerCurrentJob Example.liveOwner "", .UpdateOwnerStatus Example.liveOwner
          Example.liveOwner] :=
  ⟨rfl,
    (sync_changes_only_the_copy
      (Example.engine true Example.liveOwner .JobControlLostCurrentJob none) "ns/cluster"
      Example.liveOwner rfl).1,
    by simp [followsCopy]⟩

/-! ## Where the engine finalizer goes away -/

/-- C20: the engine finalizer is removed only on `Succeeded` for an owner that is
being deleted. For an owner that carries the engine finalizer and any other
outcome, every finalizer list that `Sync` sets contains the engine finalizer,
and, with a strategy that leaves the finalizers alone, the owner that `Sync`
hands to `UpdateOwnerStatus` carries the engine finalizer; when `Sync` writes no
owner, the owner stays as it is. -/
theorem finalizer_removed_only_on_undo (s : jobSync α F) (key : String) (owner : Owner α)
    (deleting : Bool) (jobFactory : F) (result : JobControlResult) (job : Option Job)
    (hkeep : s.strategy.KeepsFinalizers)
    (h : s.Reaches key owner deleting jobFactory result job)
    (hcarries : s.getFinalizerName ∈ owner.GetFinalizers)
    (hother : ¬ (result = .JobControlJobSucceeded ∧ deleting = true)) :
    (∀ copy written, Call.SetFinalizers copy written ∈ (s.Sync key).calls →
      s.getFinalizerName ∈ written) ∧
    (∀ original copy, Call.UpdateOwnerStatus original copy ∈ (s.Sync key).calls →
      original = owner ∧ s.getFinalizerName ∈ copy.GetFinalizers ∧
      s.hasFinalizer copy = true) := by
  have hpre := callsUpToControlJobs_touchesOwner s key owner deleting jobFactory
  have hfin := (hasFinalizer_eq_true_iff s owner).2 hcarries
  have hd := hkeep.deepCopyOwner
  have hc := hkeep.setOwnerJobSyncCondition
  have hj := hkeep.setOwnerCurrentJob
  have hok := hkeep.onJobCompletion
  have hfail := hkeep.onJobFailure
  have hsplit : ∀ c : Call α F, c.touchesOwner = true → c ∈ (s.Sync key).calls →
      c ∈ (s.dispatch owner deleting (s.strategy.GetOwnerCurrentJob owner) result job).calls := by
    intro c hc hmem
    rw [Sync_eq_dispatch s key owner deleting jobFactory _ _ h] at hmem
    simp only [SyncRun.after, List.mem_append] at hmem
    rcases hmem with hmem | hmem
    · rw [hpre c hmem] at hc; cases hc
    · exact hmem
  have hmain :
      (∀ copy written, Call.SetFinalizers copy written ∈
          (s.dispatch owner deleting (s.strategy.GetOwnerCurrentJob owner) result job).calls →
        s.getFinalizerName ∈ written) ∧
      (∀ original copy, Call.UpdateOwnerStatus original copy ∈
          (s.dispatch owner deleting (s.strategy.GetOwnerCurrentJob owner) result job).calls →
        original = owner ∧ s.getFinalizerName ∈ copy.GetFinalizers) := by
    cases result with
    | JobControlJobSucceeded =>
      cases deleting with
      | true => exact absurd ⟨rfl, rfl⟩ hother
      | false =>
        constructor
        · intro copy written hm
          simp [jobSync.dispatch, jobSync.setOwnerStatusForCompletedJob] at hm
        · intro original copy hm
          simp [jobSync.dispatch, jobSync.setOwnerStatusForCompletedJob] at hm
          obtain ⟨rfl, rfl⟩ := hm
          exact ⟨rfl, by rw [hok, hj, hc, hc, hc, hd]; exact hcarries⟩
    | JobControlJobWorking =>
      cases job with
      | none =>
        constructor <;> intro a b hm <;>
          simp [jobSync.dispatch, jobSync.setOwnerStatusForInProgressJob] at hm
      | some j =>
        constructor
        · intro copy written hm
          simp [jobSync.dispatch, jobSync.setOwnerStatusForInProgressJob] at hm
        · intro original copy hm
          simp [jobSync.dispatch, jobSync.setOwnerStatusForInProgressJob] at hm
          obtain ⟨rfl, rfl⟩ := hm
          exact ⟨rfl, by rw [hj, hc, hd]; exact hcarries⟩
    | JobControlJobFailed =>
      constructor
      · intro copy written hm
        simp [jobSync.dispatch, jobSync.setOwnerStatusForFailedJob] at hm
      · intro original copy hm
        simp [jobSync.dispatch, jobSync.setOwnerStatusForFailedJob] at hm
        obtain ⟨rfl, rfl⟩ := hm
        exact ⟨rfl, by rw [hj, hd]; exact hcarries⟩
    | JobControlCreatingJob =>
      cases hundo : s.undoOnDelete <;>
        constructor <;> intro a b hm <;>
        simp [jobSync.dispatch, hundo, jobSync.addFinalizer, hfin] at hm
    | JobControlDeletingJobs =>
      by_cases hcur : s.strategy.GetOwnerCurrentJob owner = ""
      · constructor <;> intro a b hm <;> simp [jobSync.dispatch, hcur] at hm
      · constructor
        · intro copy written hm
          simp [jobSync.dispatch, hcur, jobSync.setOwnerStatusForOutdatedJob] at hm
        · intro original copy hm
          simp [jobSync.dispatch, hcur, jobSync.setOwnerStatusForOutdatedJob] at hm
          obtain ⟨rfl, rfl⟩ := hm
          exact ⟨rfl, by rw [hj, hc, hd]; exact hcarries⟩
    | JobControlLostCurrentJob =>
      cases deleting with
      | false =>
        constructor
        · intro copy written hm
          simp [jobSync.dispatch, jobSync.setOwnerStatusForLostJob] at hm
        · intro original copy hm
          simp [jobSync.dispatch, jobSync.setOwnerStatusForLostJob] at hm
          obtain ⟨rfl, rfl⟩ := hm
          exact ⟨rfl, by rw [hfail, hj, hc, hc, hd]; exact hcarries⟩
      | true =>
        constructor
        · intro copy written hm
          simp [jobSync.dispatch, jobSync.setOwnerStatusForLostJob] at hm
        · intro original copy hm
          simp [jobSync.dispatch, jobSync.setOwnerStatusForLostJob] at hm
          obtain ⟨rfl, rfl⟩ := hm
          exact ⟨rfl, by rw [hj, hc, hc, hd]; exact hcarries⟩
    | JobControlPendingExpectations =>
      constructor <;> intro a b hm <;> simp [jobSync.dispatch] at hm
    | JobControlNoWork =>
      constructor <;> intro a b hm <;> simp [jobSync.dispatch] at hm
    | other v =>
      constructor <;> intro a b hm <;> simp [jobSync.dispatch] at hm
  constructor
  · intro copy written hm
    exact hmain.1 copy written
      (hsplit _ (by simp [Call.touchesOwner, Call.isSetFinalizers]) hm)
  · intro original copy hm
    obtain ⟨ho, hmem⟩ := hmain.2 original copy
      (hsplit _ (by simp [Call.touchesOwner, Call.isUpdateOwnerStatus]) hm)
    exact ⟨ho, hmem, (hasFinalizer_eq_true_iff s copy).2 hmem⟩

theorem finalizer_removed_only_on_undo_witness :
    (Example.strategy Example.dyingOwner none).KeepsFinalizers ∧
      (Example.engine true Example.dyingOwner .JobControlLostCurrentJob none).Reaches
        "ns/cluster" Example.dyingOwner true "deprovision" .JobControlLostCurrentJob none ∧
      (Example.engine true Example.dyingOwner .JobControlLostCurrentJob none).hasFinalizer
        { Example.dyingOwner with rest := { Example.dyingOwner.rest with
            currentJob := ""
            conditions := [(.JobSyncUndoFailed, .ConditionTrue),
              (.JobSyncUndoing, .ConditionFalse)] } } = true :=
  have hk : (Example.strategy Example.dyingOwner none).KeepsFinalizers :=
    ⟨fun _ => rfl, fun _ _ _ _ _ _ => rfl, fun _ _ => rfl, fun _ => rfl, fun _ => rfl⟩
  have hr : (Example.engine true Example.dyingOwner .JobControlLostCurrentJob none).Reaches
      "ns/cluster" Example.dyingOwner true "deprovision" .JobControlLostCurrentJob none :=
    ⟨rfl, fun hd => absurd hd (by decide), fun _ => ⟨by decide, rfl, by decide⟩, rfl, rfl⟩
  ⟨hk, hr,
    ((finalizer_removed_only_on_undo
      (Example.engine true Example.dyingOwner .JobControlLostCurrentJob none) "ns/cluster"
      Example.dyingOwner true "deprovision" .JobControlLostCurrentJob none hk hr (by decide)
      (by decide)).2 Example.dyingOwner _ (by decide)).2.2⟩

/-! ## Conditions, on the strategy of the spec -/

/-- Setting a condition gives its type the status asked for and leaves the
status of every other type. -/
theorem statusIn_setCondition (now : Nat) (conditions : List Model.Condition)
    (t : JobSyncConditionType) (status : ConditionStatus) (reason message : String)
    (check : UpdateConditionCheck) (u : JobSyncConditionType) :
    Model.statusIn (Model.setCondition now conditions t status reason message check) u =
      if u = t then some status else Model.statusIn conditions u := by
  induction conditions with
  | nil =>
    by_cases hu : u = t
    · simp [Model.setCondition, Model.statusIn, hu]
    · have hu2 : ¬ t = u := fun e => hu e.symm
      simp [Model.setCondition, Model.statusIn, hu, hu2]
  | cons c rest ih =>
    by_cases hc : c.conditionType = t
    · by_cases hs : c.status = status
      · by_cases hr : Model.shouldRefresh check c reason message = true
        · by_cases hu : u = t
          · simp [Model.setCondition, Model.statusIn, hc, hs, hr, hu]
          · have hu2 : ¬ t = u := fun e => hu e.symm
            simp [Model.setCondition, Model.statusIn, hc, hs, hr, hu, hu2]
        · by_cases hu : u = t
          · simp [Model.setCondition, Model.statusIn, hc, hs, hr, hu]
          · have hu2 : ¬ t = u := fun e => hu e.symm
            simp [Model.setCondition, Model.statusIn, hc, hs, hr, hu, hu2]
      · by_cases hu : u = t
        · simp [Model.setCondition, Model.statusIn, hc, hs, hu]
        · have hu2 : ¬ t = u := fun e => hu e.symm
          simp [Model.setCondition, Model.statusIn, hc, hs, hu, hu2]
    · by_cases hu : u = t
      · subst hu
        simp [Model.setCondition, Model.statusIn, hc, ih]
      · by_cases hcu : c.conditionType = u
        · subst hcu
          simp [Model.setCondition, Model.statusIn, hc]
        · simp [Model.setCondition, Model.statusIn, hc, hcu, ih, hu]

/-- Under `Reaches`, a call that copies, changes or writes an owner is a call of
the `switch`. -/
theorem Sync_touching_call (s : jobSync α F) (key : String) (owner : Owner α)
    (deleting : Bool) (jobFactory : F) (result : JobControlResult) (job : Option Job)
    (h : s.Reaches key owner deleting jobFactory result job) (c : Call α F)
    (hc : c.touchesOwner = true) (hmem : c ∈ (s.Sync key).calls) :
    c ∈ (s.dispatch owner deleting (s.strategy.GetOwnerCurrentJob owner) result job).calls := by
  rw [Sync_eq_dispatch s key owner deleting jobFactory _ _ h] at hmem
  simp only [SyncRun.after, List.mem_append] at hmem
  rcases hmem with hmem | hmem
  · rw [callsUpToControlJobs_touchesOwner s key owner deleting jobFactory c hmem] at hc
    cases hc
  · exact hmem

/-- On the strategy of the spec, the owner that the `switch` writes has the
deletion timestamp of the owner it was given, and a condition that is `True` on
it was `True` before or is the one that the outcome sets to `True`. -/
theorem model_dispatch_written (s : jobSync Model.OwnerStatus Bool)
    (stored : String → Except GoError (Owner Model.OwnerStatus)) (now : Nat)
    (hs : s.strategy = Model.strategy stored now)
    (owner : Owner Model.OwnerStatus) (deleting : Bool) (currentJobName : String)
    (result : JobControlResult) (job : Option Job) (original copy : Owner Model.OwnerStatus)
    (hc : Call.UpdateOwnerStatus original copy ∈
      (s.dispatch owner deleting currentJobName result job).calls) :
    copy.deletionTimestamp = owner.deletionTimestamp ∧
    (∀ u, Model.conditionStatus copy u = some .ConditionTrue →
      Model.conditionStatus owner u = some .ConditionTrue ∨
      (result = .JobControlJobWorking ∧ deleting = false ∧ u = .JobSyncProcessing) ∨
      (result = .JobControlJobWorking ∧ deleting = true ∧ u = .JobSyncUndoing) ∨
      (result = .JobControlJobSucceeded ∧ deleting = false ∧ u = .JobSyncProcessed ∧
        Model.conditionStatus copy .JobSyncProcessing = some .ConditionFalse) ∨
      (result = .JobControlLostCurrentJob ∧ deleting = false ∧ u = .JobSyncProcessingFailed) ∨
      (result = .JobControlLostCurrentJob ∧ deleting = true ∧ u = .JobSyncUndoFailed)) := by
  cases result with
  | JobControlJobSucceeded =>
    cases deleting
    · simp [jobSync.dispatch, jobSync.setOwnerStatusForCompletedJob] at hc
      obtain ⟨rfl, rfl⟩ := hc
      refine ⟨by simp [hs, Model.strategy], ?_⟩
      intro u
      by_cases h1 : u = .JobSyncProcessing <;> by_cases h2 : u = .JobSyncProcessed <;>
        by_cases h3 : u = .JobSyncProcessingFailed <;>
        simp [Model.conditionStatus, hs, Model.strategy, statusIn_setCondition, h1, h2, h3]
    · simp [jobSync.dispatch, jobSync.setOwnerStatusForCompletedJob] at hc
      obtain ⟨rfl, rfl⟩ := hc
      refine ⟨by simp [hs, Model.strategy, Owner.SetFinalizers], ?_⟩
      intro u
      by_cases h1 : u = .JobSyncUndoing <;> by_cases h2 : u = .JobSyncProcessed <;>
        by_cases h3 : u = .JobSyncUndoFailed <;>
        simp [Model.conditionStatus, hs, Model.strategy, statusIn_setCondition,
          Owner.SetFinalizers, h1, h2, h3]
  | JobControlJobWorking =>
    cases job with
    | none => simp [jobSync.dispatch, jobSync.setOwnerStatusForInProgressJob] at hc
    | some j =>
      cases deleting
      · simp [jobSync.dispatch, jobSync.setOwnerStatusForInProgressJob] at hc
        obtain ⟨rfl, rfl⟩ := hc
        refine ⟨by simp [hs, Model.strategy], ?_⟩
        intro u
        by_cases h1 : u = .JobSyncProcessing <;>
          simp [Model.conditionStatus, hs, Model.strategy, statusIn_setCondition, h1]
      · simp [jobSync.dispatch, jobSync.setOwnerStatusForInProgressJob] at hc
        obtain ⟨rfl, rfl⟩ := hc
        refine ⟨by simp [hs, Model.strategy], ?_⟩
        intro u
        by_cases h1 : u = .JobSyncUndoing <;>
          simp [Model.conditionStatus, hs, Model.strategy, statusIn_setCondition, h1]
  | JobControlJobFailed =>
    simp [jobSync.dispatch, jobSync.setOwnerStatusForFailedJob] at hc
    obtain ⟨rfl, rfl⟩ := hc
    refine ⟨by simp [hs, Model.strategy], ?_⟩
    intro u hu
    left
    simpa [Model.conditionStatus, hs, Model.strategy] using hu
  | JobControlCreatingJob =>
    cases hundo : s.undoOnDelete with
    | false => simp [jobSync.dispatch, hundo] at hc
    | true =>
      cases hfin : s.hasFinalizer owner with
      | true => simp [jobSync.dispatch, hundo, jobSync.addFinalizer, hfin] at hc
      | false =>
        simp [jobSync.dispatch, hundo, jobSync.addFinalizer, hfin] at hc
        obtain ⟨rfl, rfl⟩ := hc
        refine ⟨by simp [hs, Model.strategy, Owner.SetFinalizers], ?_⟩
        intro u hu
        left
        simpa [Model.conditionStatus, hs, Model.strategy, Owner.SetFinalizers] using hu
  | JobControlDeletingJobs =>
    by_cases hcur : currentJobName = ""
    · simp [jobSync.dispatch, hcur] at hc
    · simp [jobSync.dispatch, hcur, jobSync.setOwnerStatusForOutdatedJob] at hc
      obtain ⟨rfl, rfl⟩ := hc
      refine ⟨by simp [hs, Model.strategy], ?_⟩
      intro u
      by_cases h1 : u = .JobSyncProcessing <;>
        simp [Model.conditionStatus, hs, Model.strategy, statusIn_setCondition, h1]
  | JobControlLostCurrentJob =>
    cases deleting
    · simp [jobSync.dispatch, jobSync.setOwnerStatusForLostJob] at hc
      obtain ⟨rfl, rfl⟩ := hc
      refine ⟨by simp [hs, Model.strategy], ?_⟩
      intro u
      by_cases h1 : u = .JobSyncProcessing <;> by_cases h2 : u = .JobSyncProcessingFailed <;>
        simp [Model.conditionStatus, hs, Model.strategy, statusIn_setCondition, h1, h2]
    · simp [jobSync.dispatch, jobSync.setOwnerStatusForLostJob] at hc
      obtain ⟨rfl, rfl⟩ := hc
      refine ⟨by simp [hs, Model.strategy], ?_⟩
      intro u
      by_cases h1 : u = .JobSyncUndoing <;> by_cases h2 : u = .JobSyncUndoFailed <;>
        simp [Model.conditionStatus, hs, Model.strategy, statusIn_setCondition, h1, h2]
  | JobControlPendingExpectations => simp [jobSync.dispatch] at hc
  | JobControlNoWork => simp [jobSync.dispatch] at hc
  | other v => simp [jobSync.dispatch] at hc

/-- A run of `Sync` that calls `UpdateOwnerStatus` got as far as the `switch`,
and the call is one of the `switch`. -/
theorem Sync_UpdateOwnerStatus_reaches (s : jobSync α F) (key : String)
    (original copy : Owner α)
    (hc : Call.UpdateOwnerStatus original copy ∈ (s.Sync key).calls) :
    ∃ deleting jobFactory result job,
      s.Reaches key original deleting jobFactory result job ∧
      Call.UpdateOwnerStatus original copy ∈
        (s.dispatch original deleting (s.strategy.GetOwnerCurrentJob original) result
          job).calls := by
  rcases Sync_cases s key with ⟨err, _, _, hrun⟩ | ⟨err, _, _, hrun⟩ | ⟨owner, _, _, _, hrun⟩ |
    ⟨owner, deleting, err, _, _, _, hrun⟩ | ⟨owner, deleting, f, err, _, _, _, _, hrun⟩ |
    ⟨owner, deleting, f, result, job, hreach, hrun⟩
  · rw [hrun] at hc; simp at hc
  · rw [hrun] at hc; simp at hc
  · rw [hrun] at hc
    cases hundo : s.undoOnDelete <;> simp [hundo] at hc
  · rw [hrun] at hc
    cases deleting <;> simp [jobSync.callsUpToGetJobFactory] at hc
  · rw [hrun] at hc
    cases deleting <;> simp [jobSync.callsUpToControlJobs] at hc
  · have hmem := Sync_touching_call s key owner deleting f result job hreach _
      (by simp [Call.touchesOwner, Call.isUpdateOwnerStatus]) hc
    have ho := (dispatch_UpdateOwnerStatus s owner deleting _ result job _ _ hmem).1
    subst ho
    exact ⟨deleting, f, result, job, hreach, hmem⟩

/-- Whenever `Sync` sets a condition of type `Undoing` to `True`, the owner that
`GetOwner` gave has a deletion timestamp. -/
theorem Sync_sets_Undoing_true (s : jobSync α F) (key : String) (target : Owner α)
    (reason message : String) (check : UpdateConditionCheck)
    (hc : Call.SetOwnerJobSyncCondition target .JobSyncUndoing .ConditionTrue reason message
      check ∈ (s.Sync key).calls) :
    ∃ owner, s.strategy.GetOwner key = .ok owner ∧ owner.GetDeletionTimestamp ≠ none ∧
      target = s.strategy.DeepCopyOwner owner := by
  rcases Sync_cases s key with ⟨err, _, _, hrun⟩ | ⟨err, _, _, hrun⟩ | ⟨owner, _, _, _, hrun⟩ |
    ⟨owner, deleting, err, _, _, _, hrun⟩ | ⟨owner, deleting, f, err, _, _, _, _, hrun⟩ |
    ⟨owner, deleting, f, result, job, hreach, hrun⟩
  · rw [hrun] at hc; simp at hc
  · rw [hrun] at hc; simp at hc
  · rw [hrun] at hc
    cases hundo : s.undoOnDelete <;> simp [hundo] at hc
  · rw [hrun] at hc
    cases deleting <;> simp [jobSync.callsUpToGetJobFactory] at hc
  · rw [hrun] at hc
    cases deleting <;> simp [jobSync.callsUpToControlJobs] at hc
  · have hmem := Sync_touching_call s key owner deleting f result job hreach _
      (by simp [Call.touchesOwner, Call.isSetOwnerJobSyncCondition]) hc
    refine ⟨owner, hreach.getOwner, ?_⟩
    cases deleting with
    | true =>
      refine ⟨(hreach.isDeleting rfl).1, ?_⟩
      cases result with
      | JobControlJobWorking =>
        cases job with
        | none => simp [jobSync.dispatch, jobSync.setOwnerStatusForInProgressJob] at hmem
        | some j =>
          simp [jobSync.dispatch, jobSync.setOwnerStatusForInProgressJob] at hmem
          exact hmem.1
      | JobControlJobSucceeded =>
        simp [jobSync.dispatch, jobSync.setOwnerStatusForCompletedJob] at hmem
      | JobControlJobFailed =>
        simp [jobSync.dispatch, jobSync.setOwnerStatusForFailedJob] at hmem
      | JobControlCreatingJob =>
        cases hundo : s.undoOnDelete <;> cases hfin : s.hasFinalizer owner <;>
          simp [jobSync.dispatch, hundo, jobSync.addFinalizer, hfin] at hmem
      | JobControlDeletingJobs =>
        by_cases hcur : s.strategy.GetOwnerCurrentJob owner = "" <;>
          simp [jobSync.dispatch, hcur, jobSync.setOwnerStatusForOutdatedJob] at hmem
      | JobControlLostCurrentJob =>
        simp [jobSync.dispatch, jobSync.setOwnerStatusForLostJob] at hmem
      | JobControlPendingExpectations => simp [jobSync.dispatch] at hmem
      | JobControlNoWork => simp [jobSync.dispatch] at hmem
      | other v => simp [jobSync.dispatch] at hmem
    | false =>
      exfalso
      cases result with
      | JobControlJobWorking =>
        cases job <;>
          simp [jobSync.dispatch, jobSync.setOwnerStatusForInProgressJob] at hmem
      | JobControlJobSucceeded =>
        simp [jobSync.dispatch, jobSync.setOwnerStatusForCompletedJob] at hmem
      | JobControlJobFailed =>
        simp [jobSync.dispatch, jobSync.setOwnerStatusForFailedJob] at hmem
      | JobControlCreatingJob =>
        cases hundo : s.undoOnDelete <;> cases hfin : s.hasFinalizer owner <;>
          simp [jobSync.dispatch, hundo, jobSync.addFinalizer, hfin] at hmem
      | JobControlDeletingJobs =>
        by_cases hcur : s.strategy.GetOwnerCurrentJob owner = "" <;>
          simp [jobSync.dispatch, hcur, jobSync.setOwnerStatusForOutdatedJob] at hmem
      | JobControlLostCurrentJob =>
        simp [jobSync.dispatch, jobSync.setOwnerStatusForLostJob] at hmem
      | JobControlPendingExpectations => simp [jobSync.dispatch] at hmem
      | JobControlNoWork => simp [jobSync.dispatch] at hmem
      | other v => simp [jobSync.dispatch] at hmem

/-- C11, as amended: on the strategy of the spec, for an owner on which
`Processing=True` implies that `Processed` is not `True`, and every outcome of
`ControlJobs`, the owner written through `UpdateOwnerStatus` is such an owner
too, provided that, when the outcome is `Working` for an owner that is not being
deleted, `Processed` is not `True` on the owner before. -/
theorem processing_excludes_processed (undoOnDelete : Bool)
    (jobControl : JobControl Model.OwnerStatus Bool)
    (stored : String → Except GoError (Owner Model.OwnerStatus)) (now : Nat) (key : String)
    (owner : Owner Model.OwnerStatus) (deleting : Bool) (jobFactory : Bool)
    (result : JobControlResult) (job : Option Job)
    (h : (Model.engine undoOnDelete jobControl stored now).Reaches key owner deleting
      jobFactory result job)
    (hinv : Model.conditionStatus owner .JobSyncProcessing = some .ConditionTrue →
      Model.conditionStatus owner .JobSyncProcessed ≠ some .ConditionTrue)
    (hworking : result = .JobControlJobWorking → deleting = false →
      Model.conditionStatus owner .JobSyncProcessed ≠ some .ConditionTrue) :
    ∀ original copy,
      Call.UpdateOwnerStatus original copy ∈
        ((Model.engine undoOnDelete jobControl stored now).Sync key).calls →
      Model.conditionStatus copy .JobSyncProcessing = some .ConditionTrue →
      Model.conditionStatus copy .JobSyncProcessed ≠ some .ConditionTrue := by
  intro original copy hc hprocessing hprocessed
  have hmem := Sync_touching_call _ key owner deleting jobFactory result job h _
    (by simp [Call.touchesOwner, Call.isUpdateOwnerStatus]) hc
  obtain ⟨_, htrue⟩ := model_dispatch_written _ stored now rfl owner deleting _ result job
    original copy hmem
  rcases htrue _ hprocessed with hp | ⟨_, _, hu⟩ | ⟨_, _, hu⟩ | ⟨_, _, _, hfalse⟩ |
    ⟨_, _, hu⟩ | ⟨_, _, hu⟩
  · rcases htrue _ hprocessing with hq | ⟨hres, hdel, _⟩ | ⟨_, _, hu⟩ | ⟨_, _, hu, _⟩ |
      ⟨_, _, hu⟩ | ⟨_, _, hu⟩
    · exact hinv hq hp
    · exact hworking hres hdel hp
    · cases hu
    · cases hu
    · cases hu
    · cases hu
  · cases hu
  · cases hu
  · rw [hfalse] at hprocessing
    cases hprocessing
  · cases hu
  · cases hu

theorem processing_excludes_processed_witness :
    (Model.engine true (Model.answering "job-" .JobControlJobWorking (some ⟨"job-x7"⟩))
        (fun _ => .ok Model.runningOwner) 200).Reaches "ns/cluster" Model.runningOwner
        false false .JobControlJobWorking (some ⟨"job-x7"⟩) ∧
      Call.UpdateOwnerStatus Model.runningOwner
        (((Model.engine true (Model.answering "job-" .JobControlJobWorking (some ⟨"job-x7"⟩))
          (fun _ => .ok Model.runningOwner) 200).Sync "ns/cluster").ownerAfter
          Model.runningOwner) ∈
        ((Model.engine true (Model.answering "job-" .JobControlJobWorking (some ⟨"job-x7"⟩))
          (fun _ => .ok Model.runningOwner) 200).Sync "ns/cluster").calls ∧
      Model.conditionStatus
        (((Model.engine true (Model.answering "job-" .JobControlJobWorking (some ⟨"job-x7"⟩))
          (fun _ => .ok Model.runningOwner) 200).Sync "ns/cluster").ownerAfter
          Model.runningOwner) .JobSyncProcessing = some .ConditionTrue ∧
      Model.conditionStatus
        (((Model.engine true (Model.answering "job-" .JobControlJobWorking (some ⟨"job-x7"⟩))
          (fun _ => .ok Model.runningOwner) 200).Sync "ns/cluster").ownerAfter
          Model.runningOwner) .JobSyncProcessed ≠ some .ConditionTrue :=
  have hr : (Model.engine true (Model.answering "job-" .JobControlJobWorking (some ⟨"job-x7"⟩))
      (fun _ => .ok Model.runningOwner) 200).Reaches "ns/cluster" Model.runningOwner
      false false .JobControlJobWorking (some ⟨"job-x7"⟩) :=
    ⟨rfl, fun _ => rfl, fun hd => absurd hd (by decide), rfl, rfl⟩
  ⟨hr, by decide, by decide,
    processing_excludes_processed true
      (Model.answering "job-" .JobControlJobWorking (some ⟨"job-x7"⟩))
      (fun _ => .ok Model.runningOwner) 200 "ns/cluster" Model.runningOwner false false
      .JobControlJobWorking (some ⟨"job-x7"⟩) hr (by decide) (fun _ _ => by decide)
      Model.runningOwner _ (by decide) (by decide)⟩

/-- C11 as stated fails: on the strategy of the spec, for an owner with
`Processed=True` that is not being deleted, the outcome `Working` makes `Sync`
write an owner with `Processing=True` and `Processed=True`. -/
theorem processing_excludes_processed_counterexample :
    ¬ (∀ original copy,
      Call.UpdateOwnerStatus original copy ∈
        ((Model.engine true (Model.answering "job-" .JobControlJobWorking (some ⟨"job-x7"⟩))
          (fun _ => .ok Model.processedOwner) 200).Sync "ns/cluster").calls →
      Model.conditionStatus copy .JobSyncProcessing = some .ConditionTrue →
      Model.conditionStatus copy .JobSyncProcessed = some .ConditionFalse) := by
  intro hall
  have h := hall Model.processedOwner
    (((Model.engine true (Model.answering "job-" .JobControlJobWorking (some ⟨"job-x7"⟩))
      (fun _ => .ok Model.processedOwner) 200).Sync "ns/cluster").ownerAfter
      Model.processedOwner) (by decide) (by decide)
  revert h
  decide

/-- C12: `Sync` sets the condition `Undoing` to `True` only for an owner with a
deletion timestamp; and on the strategy of the spec, if `Undoing=True` implies a
deletion timestamp on the owner before `Sync`, it does on the owner that `Sync`
writes. -/
theorem undoing_only_when_deleting (s : jobSync α F) (key : String) :
    (∀ target reason message check,
      Call.SetOwnerJobSyncCondition target .JobSyncUndoing .ConditionTrue reason message
        check ∈ (s.Sync key).calls →
      ∃ owner, s.strategy.GetOwner key = .ok owner ∧ owner.GetDeletionTimestamp ≠ none) ∧
    (∀ (undoOnDelete : Bool) (jobControl : JobControl Model.OwnerStatus Bool)
      (stored : String → Except GoError (Owner Model.OwnerStatus)) (now : Nat)
      (original copy : Owner Model.OwnerStatus),
      Call.UpdateOwnerStatus original copy ∈
        ((Model.engine undoOnDelete jobControl stored now).Sync key).calls →
      (Model.conditionStatus original .JobSyncUndoing = some .ConditionTrue →
        original.GetDeletionTimestamp ≠ none) →
      (Model.conditionStatus copy .JobSyncUndoing = some .ConditionTrue →
        copy.GetDeletionTimestamp ≠ none)) := by
  constructor
  · intro target reason message check hc
    obtain ⟨owner, hget, hts, _⟩ := Sync_sets_Undoing_true s key target reason message check hc
    exact ⟨owner, hget, hts⟩
  · intro undoOnDelete jobControl stored now original copy hc hinv hundoing
    obtain ⟨deleting, f, result, job, hreach, hmem⟩ :=
      Sync_UpdateOwnerStatus_reaches _ key original copy hc
    obtain ⟨hts, htrue⟩ := model_dispatch_written _ stored now rfl original deleting _ result
      job original copy hmem
    have hsame : copy.GetDeletionTimestamp = original.GetDeletionTimestamp := hts
    rw [hsame]
    rcases htrue _ hundoing with hq | ⟨_, _, hu⟩ | ⟨_, hdel, _⟩ | ⟨_, _, hu, _⟩ |
      ⟨_, _, hu⟩ | ⟨_, _, hu⟩
    · exact hinv hq
    · cases hu
    · exact (hreach.isDeleting hdel).1
    · cases hu
    · cases hu
    · cases hu

theorem undoing_only_when_deleting_witness :
    (Call.SetOwnerJobSyncCondition Example.dyingOwner .JobSyncUndoing .ConditionTrue
        "JobRunning" "Job running" .UpdateConditionIfReasonOrMessageChange ∈
        ((Example.engine true Example.dyingOwner .JobControlJobWorking
          (some ⟨"job-x7"⟩)).Sync "ns/cluster").calls ∧
      ∃ owner, (Example.strategy Example.dyingOwner none).GetOwner "ns/cluster" = .ok owner ∧
        owner.GetDeletionTimestamp ≠ none) ∧
    (Call.UpdateOwnerStatus Model.deletedOwner
        (((Model.engine true (Model.answering "job-" .JobControlJobWorking (some ⟨"job-u1"⟩))
          (fun _ => .ok Model.deletedOwner) 200).Sync "ns/cluster").ownerAfter
          Model.deletedOwner) ∈
        ((Model.engine true (Model.answering "job-" .JobControlJobWorking (some ⟨"job-u1"⟩))
          (fun _ => .ok Model.deletedOwner) 200).Sync "ns/cluster").calls ∧
      Model.conditionStatus
        (((Model.engine true (Model.answering "job-" .JobControlJobWorking (some ⟨"job-u1"⟩))
          (fun _ => .ok Model.deletedOwner) 200).Sync "ns/cluster").ownerAfter
          Model.deletedOwner) .JobSyncUndoing = some .ConditionTrue ∧
      (((Model.engine true (Model.answering "job-" .JobControlJobWorking (some ⟨"job-u1"⟩))
        (fun _ => .ok Model.deletedOwner) 200).Sync "ns/cluster").ownerAfter
        Model.deletedOwner).GetDeletionTimestamp ≠ none) :=
  ⟨⟨by decide,
    (undoing_only_when_deleting (Example.engine true Example.dyingOwner .JobControlJobWorking
      (some ⟨"job-x7"⟩)) "ns/cluster").1 Example.dyingOwner "JobRunning" "Job running"
      .UpdateConditionIfReasonOrMessageChange (by decide)⟩,
   ⟨by decide, by decide,
    (undoing_only_when_deleting (Example.engine true Example.dyingOwner .JobControlJobWorking
      (some ⟨"job-x7"⟩)) "ns/cluster").2 true
      (Model.answering "job-" .JobControlJobWorking (some ⟨"job-u1"⟩))
      (fun _ => .ok Model.deletedOwner) 200 Model.deletedOwner _ (by decide)
      (fun _ => by decide) (by decide)⟩⟩

/-! ## Running `Sync` twice, on the strategy of the spec -/

/-- A condition that already has the text asked for is not refreshed, unless the
policy is `Always`. -/
theorem shouldRefresh_same (check : UpdateConditionCheck) (c : Model.Condition)
    (reason message : String) (hcheck : check ≠ .UpdateConditionAlways)
    (hr : c.reason = reason) (hm : c.message = message) :
    Model.shouldRefresh check c reason message = false := by
  cases check with
  | UpdateConditionNever => rfl
  | UpdateConditionAlways => exact absurd rfl hcheck
  | UpdateConditionIfReasonOrMessageChange => simp [Model.shouldRefresh, hr, hm]

/-- Setting a condition a second time, with the same status and text, changes
nothing, unless the policy is `Always`. -/
theorem setCondition_again (now1 now2 : Nat) (conditions : List Model.Condition)
    (t : JobSyncConditionType) (status : ConditionStatus) (reason message : String)
    (check : UpdateConditionCheck) (hcheck : check ≠ .UpdateConditionAlways) :
    Model.setCondition now2 (Model.setCondition now1 conditions t status reason message check)
      t status reason message check =
      Model.setCondition now1 conditions t status reason message check := by
  have hno : ∀ c : Model.Condition, c.reason = reason → c.message = message →
      Model.shouldRefresh check c reason message = false :=
    fun c hr hm => shouldRefresh_same check c reason message hcheck hr hm
  have h0 : Model.shouldRefresh check ⟨t, status, reason, message, now1, now1⟩ reason
      message = false := hno _ rfl rfl
  induction conditions with
  | nil => simp [Model.setCondition, h0]
  | cons c rest ih =>
    by_cases hc : c.conditionType = t
    · by_cases hst : c.status = status
      · cases hr : Model.shouldRefresh check c reason message with
        | true => simp [Model.setCondition, hc, hst, hr, h0]
        | false => simp [Model.setCondition, hc, hst, hr]
      · simp [Model.setCondition, hc, hst, h0]
    · simp [Model.setCondition, hc, ih]

/-- No call up to `ControlJobs` writes an owner. -/
theorem findSome_callsUpToControlJobs (s : jobSync α F) (key : String) (owner : Owner α)
    (deleting : Bool) (jobFactory : F) :
    (s.callsUpToControlJobs key owner deleting jobFactory).findSome? Call.writtenOwner? =
      none := by
  cases deleting <;> simp [jobSync.callsUpToControlJobs, Call.writtenOwner?]

/-- Under `Reaches`, the owner after the run is the one that the `switch`
writes. -/
theorem ownerAfter_of_reaches (s : jobSync α F) (key : String) (owner : Owner α)
    (deleting : Bool) (jobFactory : F) (result : JobControlResult) (job : Option Job)
    (h : s.Reaches key owner deleting jobFactory result job) :
    (s.Sync key).ownerAfter owner =
      ((s.dispatch owner deleting (s.strategy.GetOwnerCurrentJob owner) result
        job).calls.findSome? Call.writtenOwner?).getD owner := by
  rw [Sync_eq_dispatch s key owner deleting jobFactory _ _ h]
  simp [SyncRun.ownerAfter, SyncRun.after, List.findSome?_append,
    findSome_callsUpToControlJobs]

/-- The value of `deleting` that the deletion check ends with says whether the
owner has a deletion timestamp. -/
theorem PassesDeletionCheck_true_iff (s : jobSync α F) (owner : Owner α) (deleting : Bool)
    (hpass : s.PassesDeletionCheck owner deleting) :
    deleting = true ↔ owner.GetDeletionTimestamp ≠ none := by
  cases deleting with
  | false => simp [hpass.notDeleting rfl]
  | true => simp [(hpass.isDeleting rfl).1]

/-- A run of `Sync` that stops at the deletion check leaves the owner as it
is. -/
theorem ownerAfter_of_stopped (s : jobSync α F) (key : String) (owner : Owner α)
    (hget : s.strategy.GetOwner key = .ok owner)
    (hts : owner.GetDeletionTimestamp ≠ none)
    (hstop : s.undoOnDelete = false ∨ s.hasFinalizer owner = false) :
    (s.Sync key).ownerAfter owner = owner := by
  cases hundo : s.undoOnDelete with
  | false => simp [SyncRun.ownerAfter, jobSync.Sync, hget, hts, hundo, Call.writtenOwner?]
  | true =>
    have hfin : s.hasFinalizer owner = false := by
      rcases hstop with h | h
      · rw [hundo] at h; cases h
      · exact h
    simp [SyncRun.ownerAfter, jobSync.Sync, hget, hts, hundo, hfin, Call.writtenOwner?]

/-- Either the deletion check stops `Sync`, or it lets the owner through. -/
theorem deletion_check_cases (s : jobSync α F) (owner : Owner α) :
    (owner.GetDeletionTimestamp ≠ none ∧
      (s.undoOnDelete = false ∨ s.hasFinalizer owner = false)) ∨
    ∃ deleting, s.PassesDeletionCheck owner deleting := by
  by_cases hts : owner.GetDeletionTimestamp = none
  · exact Or.inr ⟨false, fun _ => hts, fun hd => absurd hd (by decide)⟩
  · cases hundo : s.undoOnDelete with
    | false => exact Or.inl ⟨hts, Or.inl rfl⟩
    | true =>
      cases hfin : s.hasFinalizer owner with
      | false => exact Or.inl ⟨hts, Or.inr rfl⟩
      | true => exact Or.inr ⟨true, fun hd => absurd hd (by decide), fun _ => ⟨hts, hundo, hfin⟩⟩

/-- What `Reaches` says for the engine of the spec over one stored owner and an
answering job control. -/
theorem model_reaches (undoOnDelete : Bool) (jobPrefix : String) (result : JobControlResult)
    (job : Option Job) (w : Owner Model.OwnerStatus) (now : Nat) (key : String)
    (original : Owner Model.OwnerStatus) (deleting jobFactory : Bool)
    (result2 : JobControlResult) (job2 : Option Job)
    (h : (Model.engine undoOnDelete (Model.answering jobPrefix result job)
      (fun _ => .ok w) now).Reaches key original deleting jobFactory result2 job2) :
    original = w ∧ result2 = result ∧ job2 = job := by
  obtain ⟨hget, _, _, _, hctl⟩ := h
  simp [Model.engine, Model.strategy] at hget
  simp [Model.engine, Model.answering] at hctl
  exact ⟨hget.symm, hctl.1.symm, hctl.2.symm⟩

/-- The engine of the spec looks for the finalizer named after the prefix of
its job control. -/
theorem model_hasFinalizer (undoOnDelete : Bool) (jobPrefix : String)
    (result : JobControlResult) (job : Option Job)
    (stored : String → Except GoError (Owner Model.OwnerStatus)) (now : Nat)
    (o : Owner Model.OwnerStatus) :
    (Model.engine undoOnDelete (Model.answering jobPrefix result job) stored now).hasFinalizer o
      = hasFinalizerLoop ("openshift/cluster-operator-" ++ jobPrefix ++ "1") o.finalizers :=
  rfl

/-- On the strategy of the spec, the owner after the `switch` has the deletion
timestamp of the owner before. -/
theorem model_ownerAfter_timestamp (s : jobSync Model.OwnerStatus Bool)
    (stored : String → Except GoError (Owner Model.OwnerStatus)) (now : Nat)
    (hs : s.strategy = Model.strategy stored now)
    (owner w : Owner Model.OwnerStatus) (deleting : Bool) (currentJobName : String)
    (result : JobControlResult) (job : Option Job)
    (hw : ((s.dispatch owner deleting currentJobName result job).calls.findSome?
      Call.writtenOwner?).getD owner = w) :
    w.GetDeletionTimestamp = owner.GetDeletionTimestamp := by
  cases hfs : (s.dispatch owner deleting currentJobName result job).calls.findSome?
      Call.writtenOwner? with
  | none =>
    rw [hfs] at hw
    simp at hw
    subst hw
    rfl
  | some c =>
    rw [hfs] at hw
    simp at hw
    subst hw
    obtain ⟨call, hmem, hcall⟩ := List.exists_of_findSome?_eq_some hfs
    cases call <;> simp [Call.writtenOwner?] at hcall
    subst hcall
    exact (model_dispatch_written s stored now hs owner deleting currentJobName result job _ _
      hmem).1

/-- Under `Reaches`, the `ControlJobs` call is among the calls of `Sync`. -/
theorem ControlJobs_mem_of_reaches (s : jobSync α F) (key : String) (owner : Owner α)
    (deleting : Bool) (jobFactory : F) (result : JobControlResult) (job : Option Job)
    (h : s.Reaches key owner deleting jobFactory result job) :
    Call.ControlJobs key owner (s.strategy.GetOwnerCurrentJob owner)
      (deleting || s.strategy.DoesOwnerNeedProcessing owner) jobFactory ∈
      (s.Sync key).calls := by
  rw [Sync_eq_dispatch s key owner deleting jobFactory _ _ h]
  simp only [SyncRun.after, List.mem_append]
  left
  cases deleting <;> simp [jobSync.callsUpToControlJobs]

/-- On the strategy of the spec, with `w` the owner as a first run of `Sync`
leaves it, a second run with the same answer of `ControlJobs`, when spec §4.2
allows that answer then, hands to `UpdateOwnerStatus` a copy equal to `w`. -/
theorem sync_twice_aux (undoOnDelete : Bool) (jobPrefix : String)
    (owner w : Owner Model.OwnerStatus) (result : JobControlResult) (job : Option Job)
    (now1 now2 : Nat) (key : String)
    (hw : ((Model.engine undoOnDelete (Model.answering jobPrefix result job)
      (fun _ => .ok owner) now1).Sync key).ownerAfter owner = w)
    (original copy : Owner Model.OwnerStatus)
    (hc : Call.UpdateOwnerStatus original copy ∈
      ((Model.engine undoOnDelete (Model.answering jobPrefix result job)
        (fun _ => .ok w) now2).Sync key).calls)
    (hallowed : ∀ c ∈ ((Model.engine undoOnDelete (Model.answering jobPrefix result job)
      (fun _ => .ok w) now2).Sync key).calls, Model.answerAllowed result job c = true) :
    copy = original := by
  obtain ⟨d2, f2, r2, j2, hreach2, hmem2⟩ := Sync_UpdateOwnerStatus_reaches _ key original copy hc
  obtain ⟨ho, hr, hj⟩ := model_reaches _ _ _ _ _ _ _ _ _ _ _ _ hreach2
  subst ho hr hj
  have hpass2 : (Model.engine undoOnDelete (Model.answering jobPrefix r2 j2)
      (fun _ => .ok original) now2).PassesDeletionCheck original d2 :=
    ⟨hreach2.notDeleting, hreach2.isDeleting⟩
  have hnd2 := hreach2.notDeleting
  have hd2 := hreach2.isDeleting
  have ha := hallowed _ (ControlJobs_mem_of_reaches _ key original d2 f2 r2 j2 hreach2)
  simp only [Model.answerAllowed] at ha
  clear hreach2 hc hallowed
  rcases deletion_check_cases (Model.engine undoOnDelete (Model.answering jobPrefix r2 j2)
    (fun _ => .ok owner) now1) owner with ⟨hts, hstop⟩ | ⟨d1, hpass1⟩
  · rw [ownerAfter_of_stopped _ key owner rfl hts hstop] at hw
    subst hw
    cases d2 with
    | false => exact absurd (hnd2 rfl) hts
    | true =>
      obtain ⟨_, hundo, hfin⟩ := hd2 rfl
      rcases hstop with h | h
      · simp [Model.engine] at h hundo
        rw [h] at hundo
        cases hundo
      · rw [model_hasFinalizer] at h hfin
        rw [h] at hfin
        cases hfin
  · have hreach1 : (Model.engine undoOnDelete (Model.answering jobPrefix r2 j2)
        (fun _ => .ok owner) now1).Reaches key owner d1 d1 r2 j2 :=
      ⟨rfl, hpass1.notDeleting, hpass1.isDeleting, rfl, rfl⟩
    rw [ownerAfter_of_reaches _ key owner d1 d1 r2 j2 hreach1] at hw
    have hsame := model_ownerAfter_timestamp _ (fun _ => .ok owner) now1 rfl owner original d1 _
      r2 j2 hw
    have hd : d2 = d1 := by
      have h1 := PassesDeletionCheck_true_iff _ owner d1 hpass1
      have h2 := PassesDeletionCheck_true_iff _ original d2 hpass2
      rw [hsame] at h2
      cases d1 <;> cases d2 <;> simp_all
    subst hd
    have hnd1 := hpass1.notDeleting
    have hd1 := hpass1.isDeleting
    clear hreach1 hpass1 hpass2 hsame
    simp only [model_hasFinalizer] at hd1 hd2
    cases r2 with
    | JobControlJobFailed =>
      simp [jobSync.dispatch, jobSync.setOwnerStatusForFailedJob, Call.writtenOwner?,
        Model.engine, Model.strategy] at hw hmem2
      subst hw
      simp [hmem2]
    | JobControlPendingExpectations => simp [jobSync.dispatch] at hmem2
    | JobControlNoWork => simp [jobSync.dispatch] at hmem2
    | other v => simp [jobSync.dispatch] at hmem2
    | JobControlLostCurrentJob =>
      cases d2 <;>
      · simp [jobSync.dispatch, jobSync.setOwnerStatusForLostJob, Call.writtenOwner?,
          Model.engine, Model.strategy] at hw
        subst hw
        simp [Model.allowedAnswer, Model.engine, Model.strategy] at ha
    | JobControlDeletingJobs =>
      by_cases hcur : owner.rest.currentJob = ""
      · simp [jobSync.dispatch, Model.engine, Model.strategy, hcur, Call.writtenOwner?] at hw
        subst hw
        simp [jobSync.dispatch, Model.engine, Model.strategy, hcur] at hmem2
      · simp [jobSync.dispatch, Model.engine, Model.strategy, hcur,
          jobSync.setOwnerStatusForOutdatedJob, Call.writtenOwner?] at hw
        subst hw
        simp [jobSync.dispatch, Model.engine, Model.strategy] at hmem2
    | JobControlCreatingJob =>
      cases hundo : undoOnDelete with
      | false =>
        simp [jobSync.dispatch, Model.engine, hundo, Call.writtenOwner?] at hw
        subst hw
        simp [jobSync.dispatch, Model.engine, hundo] at hmem2
      | true =>
        subst hundo
        simp only [jobSync.dispatch, jobSync.addFinalizer, model_hasFinalizer] at hw hmem2
        cases hfin : hasFinalizerLoop ("openshift/cluster-operator-" ++ jobPrefix ++ "1")
            owner.finalizers with
        | true =>
          simp [Model.engine, hfin, Call.writtenOwner?] at hw
          subst hw
          simp [Model.engine, hfin] at hmem2
        | false =>
          simp [Model.engine, Model.strategy, Model.answering, jobSync.getFinalizerName,
            Owner.SetFinalizers, Owner.GetFinalizers, hfin, Call.writtenOwner?] at hw
          subst hw
          have hhas : hasFinalizerLoop ("openshift/cluster-operator-" ++ jobPrefix ++ "1")
              (sets.List (sets.Insert (sets.NewString owner.finalizers)
                ("openshift/cluster-operator-" ++ jobPrefix ++ "1"))) = true := by
            rw [hasFinalizerLoop_eq_true_iff, mem_sets_List, mem_sets_Insert]
            exact Or.inr rfl
          simp [Model.engine, hhas] at hmem2
    | JobControlJobWorking =>
      cases j2 with
      | none => simp [jobSync.dispatch, jobSync.setOwnerStatusForInProgressJob] at hmem2
      | some j =>
        cases d2 <;>
        · simp [jobSync.dispatch, jobSync.setOwnerStatusForInProgressJob, Call.writtenOwner?,
            Model.engine, Model.strategy] at hw hmem2
          subst hw
          rw [hmem2]
          simp [setCondition_again]
    | JobControlJobSucceeded =>
      cases d2 with
      | false =>
        simp [jobSync.dispatch, jobSync.setOwnerStatusForCompletedJob, Call.writtenOwner?,
          Model.engine, Model.strategy] at hw
        subst hw
        simp [Model.allowedAnswer, Model.engine, Model.strategy] at ha
      | true =>
        simp [jobSync.dispatch, jobSync.setOwnerStatusForCompletedJob, Call.writtenOwner?,
          Model.engine, Model.strategy, Model.answering, jobSync.getFinalizerName,
          Owner.SetFinalizers, Owner.GetFinalizers] at hw
        subst hw
        obtain ⟨_, _, hfin⟩ := hd2 rfl
        rw [hasFinalizerLoop_eq_true_iff] at hfin
        simp [mem_sets_List, mem_sets_Delete] at hfin

/-- Whenever `Sync` calls `ControlJobs`, the owner it passes is the one that
`GetOwner` gave, it is through the deletion check, and the job name passed is
the one recorded on it. -/
theorem Sync_ControlJobs_currentJob (s : jobSync α F) (key : String) (k : String)
    (o : Owner α) (currentJobName : String) (needsProcessing : Bool) (jobFactory : F)
    (hc : Call.ControlJobs k o currentJobName needsProcessing jobFactory ∈
      (s.Sync key).calls) :
    ∃ deleting, s.strategy.GetOwner key = .ok o ∧ s.PassesDeletionCheck o deleting ∧
      currentJobName = s.strategy.GetOwnerCurrentJob o := by
  have hfrom : ∀ owner deleting f, s.strategy.GetOwner key = .ok owner →
      s.PassesDeletionCheck owner deleting →
      Call.ControlJobs k o currentJobName needsProcessing jobFactory ∈
        s.callsUpToControlJobs key owner deleting f →
      ∃ deleting, s.strategy.GetOwner key = .ok o ∧ s.PassesDeletionCheck o deleting ∧
        currentJobName = s.strategy.GetOwnerCurrentJob o := by
    intro owner deleting f hget hpass hmem
    cases deleting with
    | false =>
      simp [jobSync.callsUpToControlJobs] at hmem
      obtain ⟨_, rfl, rfl, _, _⟩ := hmem
      exact ⟨false, hget, hpass, rfl⟩
    | true =>
      simp [jobSync.callsUpToControlJobs] at hmem
      obtain ⟨_, rfl, rfl, _, _⟩ := hmem
      exact ⟨true, hget, hpass, rfl⟩
  rcases Sync_cases s key with ⟨err, _, _, hrun⟩ | ⟨err, _, _, hrun⟩ | ⟨owner, _, _, _, hrun⟩ |
    ⟨owner, deleting, err, _, _, _, hrun⟩ |
    ⟨owner, deleting, f, err, hget, hpass, _, _, hrun⟩ |
    ⟨owner, deleting, f, result, job, hreach, hrun⟩
  · rw [hrun] at hc; simp at hc
  · rw [hrun] at hc; simp at hc
  · rw [hrun] at hc
    cases hundo : s.undoOnDelete <;> simp [hundo] at hc
  · rw [hrun] at hc
    cases deleting <;> simp [jobSync.callsUpToGetJobFactory] at hc
  · rw [hrun] at hc
    exact hfrom owner deleting f hget hpass hc
  · rw [hrun] at hc
    simp only [SyncRun.after, List.mem_append] at hc
    rcases hc with hc | hc
    · exact hfrom owner deleting f hreach.getOwner ⟨hreach.notDeleting, hreach.isDeleting⟩ hc
    · rcases dispatch_calls_kind s owner deleting _ result job _ hc with h | h
      · simp [Call.touchesOwner, Call.isDeepCopyOwner, Call.isSetOwnerJobSyncCondition,
          Call.isSetOwnerCurrentJob, Call.isSetFinalizers, Call.isOnJobCompletion,
          Call.isOnJobFailure, Call.isUpdateOwnerStatus] at h
      · cases h

/-- On the strategy of the spec, after a first run with the outcome
`LostCurrentJob`, `Failed`, or `Succeeded` for an owner without a deletion
timestamp, no job is recorded on the owner: a second run calls `ControlJobs`
with the empty job name, for which spec §4.2 gives none of these outcomes. -/
theorem second_run_without_recorded_job (undoOnDelete : Bool) (jobPrefix : String)
    (owner w : Owner Model.OwnerStatus) (result : JobControlResult) (job : Option Job)
    (now1 now2 : Nat) (key : String)
    (hres : result = .JobControlLostCurrentJob ∨ result = .JobControlJobFailed ∨
      (result = .JobControlJobSucceeded ∧ owner.GetDeletionTimestamp = none))
    (hw : ((Model.engine undoOnDelete (Model.answering jobPrefix result job)
      (fun _ => .ok owner) now1).Sync key).ownerAfter owner = w)
    (k : String) (o : Owner Model.OwnerStatus) (currentJobName : String)
    (needsProcessing jobFactory : Bool)
    (hc : Call.ControlJobs k o currentJobName needsProcessing jobFactory ∈
      ((Model.engine undoOnDelete (Model.answering jobPrefix result job)
        (fun _ => .ok w) now2).Sync key).calls) :
    currentJobName = "" ∧ Model.allowedAnswer currentJobName needsProcessing result job = false := by
  obtain ⟨d2, hget2, hpass2, hcur⟩ := Sync_ControlJobs_currentJob _ key k o _ _ _ hc
  have ho : w = o := by
    simp [Model.engine, Model.strategy] at hget2
    exact hget2
  subst ho
  have hnd2 := hpass2.notDeleting
  have hd2 := hpass2.isDeleting
  clear hc hget2
  rcases deletion_check_cases (Model.engine undoOnDelete (Model.answering jobPrefix result job)
    (fun _ => .ok owner) now1) owner with ⟨hts, hstop⟩ | ⟨d1, hpass1⟩
  · rw [ownerAfter_of_stopped _ key owner rfl hts hstop] at hw
    subst hw
    cases d2 with
    | false => exact absurd (hnd2 rfl) hts
    | true =>
      obtain ⟨_, hundo, hfin⟩ := hd2 rfl
      rcases hstop with h | h
      · simp [Model.engine] at h hundo
        rw [h] at hundo
        cases hundo
      · rw [model_hasFinalizer] at h hfin
        rw [h] at hfin
        cases hfin
  · have hreach1 : (Model.engine undoOnDelete (Model.answering jobPrefix result job)
        (fun _ => .ok owner) now1).Reaches key owner d1 d1 result job :=
      ⟨rfl, hpass1.notDeleting, hpass1.isDeleting, rfl, rfl⟩
    rw [ownerAfter_of_reaches _ key owner d1 d1 result job hreach1] at hw
    have hd1 := hpass1.isDeleting
    clear hreach1 hpass2 hnd2 hd2
    rcases hres with hres | hres | ⟨hres, hts⟩
    · subst hres
      cases d1 <;>
      · simp [jobSync.dispatch, jobSync.setOwnerStatusForLostJob, Call.writtenOwner?,
          Model.engine, Model.strategy] at hw
        subst hw
        simp [Model.engine, Model.strategy] at hcur
        subst hcur
        simp [Model.allowedAnswer]
    · subst hres
      simp [jobSync.dispatch, jobSync.setOwnerStatusForFailedJob, Call.writtenOwner?,
        Model.engine, Model.strategy] at hw
      subst hw
      simp [Model.engine, Model.strategy] at hcur
      subst hcur
      simp [Model.allowedAnswer]
    · subst hres
      cases d1 with
      | true => exact absurd hts (hd1 rfl).1
      | false =>
        simp [jobSync.dispatch, jobSync.setOwnerStatusForCompletedJob, Call.writtenOwner?,
          Model.engine, Model.strategy] at hw
        subst hw
        simp [Model.engine, Model.strategy] at hcur
        subst hcur
        simp [Model.allowedAnswer]

/-- C13: on the strategy of the spec, `Sync` is idempotent. For every owner and
every outcome of `ControlJobs`, when `Sync` is run a second time, at any time,
on the owner as the first run left it, with the same outcome and job, and that
outcome is one that `ControlJobs` can give in the second run (spec §4.2), the
copy that the second run hands to `UpdateOwnerStatus`, if it calls it, equals
its original, condition times included. -/
theorem sync_twice_writes_nothing (undoOnDelete : Bool) (jobPrefix : String)
    (owner : Owner Model.OwnerStatus) (result : JobControlResult) (job : Option Job)
    (now1 now2 : Nat) (key : String)
    (hallowed : ∀ c ∈
      ((Model.engine undoOnDelete (Model.answering jobPrefix result job)
        (fun _ => .ok
          (((Model.engine undoOnDelete (Model.answering jobPrefix result job)
            (fun _ => .ok owner) now1).Sync key).ownerAfter owner)) now2).Sync key).calls,
      Model.answerAllowed result job c = true) :
    ∀ original copy,
      Call.UpdateOwnerStatus original copy ∈
        ((Model.engine undoOnDelete (Model.answering jobPrefix result job)
          (fun _ => .ok
            (((Model.engine undoOnDelete (Model.answering jobPrefix result job)
              (fun _ => .ok owner) now1).Sync key).ownerAfter owner)) now2).Sync key).calls →
      copy = original :=
  fun original copy hc =>
    sync_twice_aux undoOnDelete jobPrefix owner _ result job now1 now2 key rfl original copy hc
      hallowed

theorem sync_twice_writes_nothing_witness :
    (∀ c ∈
      ((Model.engine true (Model.answering "job-" .JobControlJobWorking (some ⟨"job-x7"⟩))
        (fun _ => .ok
          (((Model.engine true (Model.answering "job-" .JobControlJobWorking
            (some ⟨"job-x7"⟩)) (fun _ => .ok Model.processedOwner) 200).Sync
            "ns/cluster").ownerAfter Model.processedOwner)) 300).Sync "ns/cluster").calls,
      Model.answerAllowed .JobControlJobWorking (some ⟨"job-x7"⟩) c = true) ∧
      Call.UpdateOwnerStatus
        (((Model.engine true (Model.answering "job-" .JobControlJobWorking (some ⟨"job-x7"⟩))
          (fun _ => .ok Model.processedOwner) 200).Sync "ns/cluster").ownerAfter
          Model.processedOwner)
        { Model.processedOwner with rest := { Model.processedOwner.rest with
            conditions := [
              { conditionType := .JobSyncProcessing, status := .ConditionTrue,
                reason := "JobRunning", message := "Job running",
                lastTransitionTime := 200, lastProbeTime := 200 },
              { conditionType := .JobSyncProcessed, status := .ConditionTrue,
                reason := "JobCompleted", message := "Job completed",
                lastTransitionTime := 100, lastProbeTime := 100 }] } } ∈
        ((Model.engine true (Model.answering "job-" .JobControlJobWorking (some ⟨"job-x7"⟩))
          (fun _ => .ok
            (((Model.engine true (Model.answering "job-" .JobControlJobWorking
              (some ⟨"job-x7"⟩)) (fun _ => .ok Model.processedOwner) 200).Sync
              "ns/cluster").ownerAfter Model.processedOwner)) 300).Sync "ns/cluster").calls ∧
      { Model.processedOwner with rest := { Model.processedOwner.rest with
          conditions := [
            { conditionType := .JobSyncProcessing, status := .ConditionTrue,
              reason := "JobRunning", message := "Job running",
              lastTransitionTime := 200, lastProbeTime := 200 },
            { conditionType := .JobSyncProcessed, status := .ConditionTrue,
              reason := "JobCompleted", message := "Job completed",
              lastTransitionTime := 100, lastProbeTime := 100 }] } } =
        ((Model.engine true (Model.answering "job-" .JobControlJobWorking (some ⟨"job-x7"⟩))
          (fun _ => .ok Model.processedOwner) 200).Sync "ns/cluster").ownerAfter
          Model.processedOwner :=
  ⟨by decide, by decide,
    sync_twice_writes_nothing true "job-" Model.processedOwner .JobControlJobWorking
      (some ⟨"job-x7"⟩) 200 300 "ns/cluster" (by decide) _ _ (by decide)⟩

end JobSyncEngine
